import Mathlib

set_option linter.unusedVariables false

/-!
# TSP_GA: a shallow embedding of `src/tsp.cpp`

The genetic-algorithm engine of the repository (`getLenght`, `getFitness`, `sortAndBest`, `GA`,
`PMX`, `tournament`, `proportional`, `mutation`, `crossover`) is embedded as Lean functions.

Conventions of the embedding:

* `double` values are exact rationals (`ℚ`); node identifiers stored in `double` slots are
  integers (`Int`), so that the `-1` placeholder of `PMX` is representable.
* `std::vector` is `List`; a read or write outside a vector is undefined behaviour in the
  source and is the fault `Fault.outOfBounds` wherever the code path is fallible.
  Inside `getLenght` (which is total in the model) an out-of-range read yields `0`; the
  theorems about lengths carry the hypotheses under which no such read occurs.
* `rand(a, b)` consumes one element `r` of an explicit list of raw draws and returns
  `a + r % (b - a + 1)`; an exhausted list is the fault `Fault.noDraws`.
* Exact arithmetic drops the rounding of `double`: the theorems about `getLenght` and
  `getFitness` are statements in exact arithmetic. Where rounding decides the outcome of a
  comparison, `getLenghtDouble` and `getFitnessDouble` redo the computation with every
  operation rounded to binary64.
* Division of exact rationals by zero yields `0` in Lean where IEEE arithmetic yields NaN or
  an infinity; the statements that depend on a quotient carry the hypothesis that the divisor
  is non-zero, all others hold for either outcome of the comparison involved.
* `while` loops that have no syntactic bound take a fuel argument, except the redraw loop
  `while (a == b) b = rand(...)`, which recurses on the list of draws.
* A run that needs more draws than the list holds ends in `Fault.noDraws`; that a function
  returns is stated as: every list of draws can be extended so that it returns.
* The constants of the header `tsp.h` (not part of the sources at hand) are the fields of
  `Config`.
* `std::sort` is library code: it is a parameter `StdSort` constrained by the contract of
  `std::sort`; `insertionStdSort` is one executable instance.
-/

namespace TSP_GA

/-- Ways in which a run of the embedded code yields no result. -/
inductive Fault where
  /-- a vector is read or written outside its size (undefined behaviour in the source) -/
  | outOfBounds
  /-- a `while` loop did not finish within the supplied fuel -/
  | outOfFuel
  /-- the supplied list of random draws is exhausted -/
  | noDraws
  /-- `uniform_int_distribution(a, b)` is built with `b < a` -/
  | badRange
  /-- integer division by zero -/
  | divByZero
  deriving DecidableEq, Repr

deriving instance DecidableEq for Except

/-- A tour: the `std::vector<double>` of node identifiers. -/
abbrev Tour := List Int

/-- The constants of `tsp.h`, which is not among the sources; taken as parameters. -/
structure Config where
  ITERATIONS : Nat
  SELECTION_PART : Nat
  ELITE : Nat
  MUTATION_SIZE : Nat
  MUTATION_PROBABILITY : ℚ

/-- The selection strategy `CROSSOVER_SELECTION`. -/
inductive CROSSOVER_SELECTION where
  | TOURNAMENT
  | PROPORTIONAL
  deriving DecidableEq, Repr

/-- The data members of `class TSP` used by the genetic algorithm. -/
structure TSP where
  m_size : Nat
  m_matrix : List (List ℚ)
  m_population : List Tour
  m_path : Tour
  m_record : ℚ
  deriving DecidableEq, Repr

/-- The entry `m_matrix[a][b]`; the identifiers are converted to indices. -/
def dist (m : List (List ℚ)) (a b : Int) : ℚ :=
  (m.getD a.toNat []).getD b.toNat 0

/-- The node `path[i]`. -/
def node (path : Tour) (i : Nat) : Int := path.getD i 0

/-- `TSP::getLenght`: the edges `path[i] -> path[i+1]` for `i < m_size - 1`, then the closing
edge `path[m_size - 1] -> path[0]`. Meant for `m_size >= 1`: for `m_size = 0` the unsigned
bound `m_size - 1` of the source wraps around. -/
def getLenght (s : TSP) (path : Tour) : ℚ :=
  (List.range (s.m_size - 1)).foldl
      (fun result i => result + dist s.m_matrix (node path i) (node path (i + 1))) 0
    + dist s.m_matrix (node path (s.m_size - 1)) (node path 0)

/-- The accumulator `sum` of `TSP::getFitness`: the lengths of all tours of `m_population`. -/
def totalLenght (s : TSP) : ℚ :=
  s.m_population.foldl (fun sum i => sum + getLenght s i) 0

/-- `TSP::getFitness`: `1.0 - getLenght(path) / sum`. -/
def getFitness (s : TSP) (path : Tour) : ℚ :=
  1 - getLenght s path / totalLenght s

/-- The comparator handed to `std::sort` by `sortAndBest`, for a key `key`:
`key(a) > key(b)`. -/
def greaterBy (key : Tour → ℚ) (a b : Tour) : Bool := decide (key a > key b)

/-- The contract of `std::sort` for comparators of the form `key(a) > key(b)`: the output
is a rearrangement of the input in which no later element compares before an earlier one. -/
structure StdSort where
  run : (Tour → Tour → Bool) → List Tour → List Tour
  perm : ∀ (key : Tour → ℚ) (l : List Tour), (run (greaterBy key) l).Perm l
  sorted : ∀ (key : Tour → ℚ) (l : List Tour),
    (run (greaterBy key) l).Pairwise (fun a b => key b ≤ key a)

/-- Insertion of one element in front of the first element that it does not follow. -/
def orderedInsert (cmp : Tour → Tour → Bool) (a : Tour) : List Tour → List Tour
  | [] => [a]
  | b :: l => if cmp b a then b :: orderedInsert cmp a l else a :: b :: l

/-- Insertion sort under a comparator `cmp` (true when the first argument goes first). -/
def insertionSort (cmp : Tour → Tour → Bool) : List Tour → List Tour
  | [] => []
  | a :: l => orderedInsert cmp a (insertionSort cmp l)

/-- `TSP::sortAndBest`: sort a copy of the population by descending fitness (fitness taken
against the unsorted `m_population`), store it, and record its first tour and length. -/
def sortAndBest (srt : StdSort) (s : TSP) : Except Fault TSP :=
  match srt.run (greaterBy (getFitness s)) s.m_population with
  | [] => .error .outOfBounds
  | best :: rest =>
    .ok { s with m_population := best :: rest, m_path := best, m_record := getLenght s best }

/-- The value `rand(a, b)` returns for the raw draw `r`. -/
def randVal (a b : Int) (r : Nat) : Int := a + (r : Int) % (b - a + 1)

/-- The helper `rand(a, b)` of the anonymous namespace, over an explicit list of draws. -/
def rand (a b : Int) (draws : List Nat) : Except Fault (Int × List Nat) :=
  if b < a then .error .badRange
  else match draws with
    | [] => .error .noDraws
    | r :: rest => .ok (randVal a b r, rest)

/-- The idiom `b = rand(0, hi); while (a == b) b = rand(0, hi);` of `tournament` and
`mutation`: draw until the value differs from `a`. -/
def drawDistinct (hi : Int) (a : Int) : List Nat → Except Fault (Int × List Nat)
  | [] => rand 0 hi []
  | r :: rest =>
    if hi < 0 then .error .badRange
    else if a = randVal 0 hi r then drawDistinct hi a rest
    else .ok (randVal 0 hi r, rest)

/-- The element `v[i]` of a vector, for an index held in an `int`. -/
def vecAt {α : Type} (v : List α) (i : Int) : Except Fault α :=
  if i < 0 then .error .outOfBounds
  else match v[i.toNat]? with
    | some x => .ok x
    | none => .error .outOfBounds

/-- The two draws `a = rand(0, hi); b = rand(0, hi); while (a == b) b = rand(0, hi);` shared
by `tournament` and `mutation`. -/
def drawPair (hi : Int) (draws : List Nat) : Except Fault (Int × Int × List Nat) :=
  match rand 0 hi draws with
  | .error e => .error e
  | .ok (a, d1) =>
    match drawDistinct hi a d1 with
    | .error e => .error e
    | .ok (b, d2) => .ok (a, b, d2)

/-- The body of the `for` loop of `TSP::tournament`, run `count` times. -/
def tournamentLoop (s : TSP) :
    Nat → List Nat → List Tour → Except Fault (List Tour × List Nat)
  | 0, draws, result => .ok (result, draws)
  | count + 1, draws, result =>
    match drawPair ((s.m_population.length : Int) - 1) draws with
    | .error e => .error e
    | .ok (a, b, d2) =>
      match vecAt s.m_population a, vecAt s.m_population b with
      | .ok ta, .ok tb =>
        if getFitness s ta > getFitness s tb then tournamentLoop s count d2 (result ++ [ta])
        else tournamentLoop s count d2 (result ++ [tb])
      | _, _ => .error .outOfBounds

/-- `TSP::tournament`. -/
def tournament (cfg : Config) (s : TSP) (draws : List Nat) :
    Except Fault (List Tour × List Nat) :=
  if cfg.SELECTION_PART = 0 then .error .divByZero
  else tournamentLoop s (s.m_population.length / cfg.SELECTION_PART) draws []

/-- The `for` loop of `TSP::proportional` from index `i` on; `todo` is the part of
`m_population` from index `i`. -/
def proportionalLoop (cfg : Config) (s : TSP) (minFitness maxFitness : ℚ) :
    Nat → List Tour → List Nat → List Tour → Except Fault (List Tour × List Nat)
  | _, [], draws, result => .ok (result, draws)
  | i, t :: todo, draws, result =>
    if result.length = s.m_population.length / cfg.SELECTION_PART then .ok (result, draws)
    else if i < cfg.ELITE then
      proportionalLoop cfg s minFitness maxFitness (i + 1) todo draws (result ++ [t])
    else
      match rand 1 100 draws with
      | .error e => .error e
      | .ok (r, d1) =>
        if (getFitness s t - minFitness) / (maxFitness - minFitness) > (r : ℚ) / 100 then
          proportionalLoop cfg s minFitness maxFitness (i + 1) todo d1 (result ++ [t])
        else
          proportionalLoop cfg s minFitness maxFitness (i + 1) todo d1 result

/-- `TSP::proportional`. -/
def proportional (cfg : Config) (s : TSP) (draws : List Nat) :
    Except Fault (List Tour × List Nat) :=
  match s.m_population.getLast?, s.m_population.head? with
  | some last, some first =>
    if cfg.SELECTION_PART = 0 then .error .divByZero
    else proportionalLoop cfg s (getFitness s last) (getFitness s first) 0 s.m_population
      draws []
  | _, _ => .error .outOfBounds

/-- `TSP::selectionForCrossover`. -/
def selectionForCrossover (cross : CROSSOVER_SELECTION) (cfg : Config) (s : TSP)
    (draws : List Nat) : Except Fault (List Tour × List Nat) :=
  match cross with
  | .TOURNAMENT => tournament cfg s draws
  | .PROPORTIONAL => proportional cfg s draws

/-- The call `std::swap(result[a], result[b])`. -/
def swapAt (result : Tour) (a b : Int) : Except Fault Tour :=
  match vecAt result a, vecAt result b with
  | .ok x, .ok y => .ok ((result.set a.toNat y).set b.toNat x)
  | _, _ => .error .outOfBounds

/-- The `for` loop of `TSP::mutation`, run `count` times; `size` is `individual.size()`. -/
def mutationLoop (cfg : Config) (size : Nat) :
    Nat → List Nat → Tour → Except Fault (Tour × List Nat)
  | 0, draws, result => .ok (result, draws)
  | count + 1, draws, result =>
    match rand 1 100 draws with
    | .error e => .error e
    | .ok (r, d1) =>
      if (r : ℚ) / 100 < cfg.MUTATION_PROBABILITY then
        match drawPair ((size : Int) - 1) d1 with
        | .error e => .error e
        | .ok (a, b, d3) =>
          match swapAt result a b with
          | .error e => .error e
          | .ok swapped => mutationLoop cfg size count d3 swapped
      else mutationLoop cfg size count d1 result

/-- `TSP::mutation`. -/
def mutation (cfg : Config) (individual : Tour) (draws : List Nat) :
    Except Fault (Tour × List Nat) :=
  mutationLoop cfg individual.length cfg.MUTATION_SIZE draws individual

/-- The loop `while (pos <= k) pos = distance(p2.begin(), find(p2.begin(), p2.end(), p1[pos]))`
of `TSP::PMX`, with at most `fuel` jumps. -/
def walk (p1 p2 : Tour) (k : Nat) : Nat → Nat → Except Fault Nat
  | 0, pos => if pos ≤ k then .error .outOfFuel else .ok pos
  | fuel + 1, pos =>
    if pos ≤ k then
      match p1[pos]? with
      | none => .error .outOfBounds
      | some v => walk p1 p2 k fuel (p2.indexOf v)
    else .ok pos

/-- The second loop of `TSP::PMX`, over the indices `todo` (in the source `0, ..., k`): a value
`p2[i]` that is not in `res` is written at the position the mapping chain leads to. -/
def relocate (fuel : Nat) (p1 p2 : Tour) (k : Nat) : List Nat → Tour → Except Fault Tour
  | [], res => .ok res
  | i :: todo, res =>
    match p2[i]? with
    | none => .error .outOfBounds
    | some val =>
      if val ∈ res then relocate fuel p1 p2 k todo res
      else
        match walk p1 p2 k fuel i with
        | .error e => .error e
        | .ok pos =>
          if pos < res.length then relocate fuel p1 p2 k todo (res.set pos val)
          else .error .outOfBounds

/-- The third loop of `TSP::PMX` from index `i` on: `if (res[i] == -1) res[i] = p2[i]`;
`todo` is the part of `res` from index `i`. -/
def fillEmpty (p2 : Tour) : Nat → Tour → Except Fault Tour
  | _, [] => .ok []
  | i, x :: todo =>
    match fillEmpty p2 (i + 1) todo with
    | .error e => .error e
    | .ok filled =>
      if x = -1 then
        match p2[i]? with
        | none => .error .outOfBounds
        | some v => .ok (v :: filled)
      else .ok (x :: filled)

/-- The first loop of `TSP::PMX`: `p1[i]` for `i <= k`, the placeholder `-1` after it. -/
def initChild (p1 : Tour) (k : Nat) : Tour :=
  (List.range p1.length).map (fun i => if i ≤ k then node p1 i else -1)

/-- `TSP::PMX`; `fuel` bounds the number of jumps of each mapping-chain walk. -/
def PMX (fuel : Nat) (p1 p2 : Tour) (k : Nat) : Except Fault Tour :=
  match relocate fuel p1 p2 k (List.range (k + 1)) (initChild p1 k) with
  | .error e => .error e
  | .ok res => fillEmpty p2 0 res

/-- The `for` loop of `TSP::crossover` over the consecutive pairs of the pool: two children
per pair, each mutated and appended to the population `pop`. -/
def crossoverLoop (cfg : Config) (fuel : Nat) (k : Nat) :
    List Tour → List Nat → List Tour → Except Fault (List Tour × List Nat)
  | a :: b :: pool, draws, pop =>
    match PMX fuel a b k with
    | .error e => .error e
    | .ok c1 =>
      match mutation cfg c1 draws with
      | .error e => .error e
      | .ok (m1, d1) =>
        match PMX fuel b a k with
        | .error e => .error e
        | .ok c2 =>
          match mutation cfg c2 d1 with
          | .error e => .error e
          | .ok (m2, d2) => crossoverLoop cfg fuel k (b :: pool) d2 (pop ++ [m1, m2])
  | _, draws, pop => .ok (pop, draws)

/-- `TSP::crossover`. The cut point is drawn from `population[0]`, so an empty pool is an
out-of-bounds read before the loop (whose bound `population.size() - 1` is then never used). -/
def crossover (cfg : Config) (fuel : Nat) (s : TSP) (pool : List Tour) (draws : List Nat) :
    Except Fault (TSP × List Nat) :=
  match pool with
  | [] => .error .outOfBounds
  | p0 :: _ =>
    match rand 1 ((p0.length : Int) - 2) draws with
    | .error e => .error e
    | .ok (k, d1) =>
      match crossoverLoop cfg fuel k.toNat pool d1 s.m_population with
      | .error e => .error e
      | .ok (pop, d2) => .ok ({ s with m_population := pop }, d2)

/-- The loop `while (m_population.size() > m_size) m_population.pop_back()` of `TSP::GA`. -/
def truncate (s : TSP) : TSP :=
  { s with m_population := s.m_population.take s.m_size }

/-- One iteration of the `for` loop of `TSP::GA`. -/
def generation (srt : StdSort) (cfg : Config) (fuel : Nat) (cross : CROSSOVER_SELECTION)
    (s : TSP) (draws : List Nat) : Except Fault (TSP × List Nat) :=
  match selectionForCrossover cross cfg s draws with
  | .error e => .error e
  | .ok (pool, d1) =>
    match crossover cfg fuel s pool d1 with
    | .error e => .error e
    | .ok (s1, d2) =>
      match sortAndBest srt s1 with
      | .error e => .error e
      | .ok s2 => .ok (truncate s2, d2)

/-- The `for` loop of `TSP::GA`, run `iterations` times. -/
def GALoop (srt : StdSort) (cfg : Config) (fuel : Nat) (cross : CROSSOVER_SELECTION) :
    Nat → TSP → List Nat → Except Fault (TSP × List Nat)
  | 0, s, draws => .ok (s, draws)
  | iterations + 1, s, draws =>
    match generation srt cfg fuel cross s draws with
    | .error e => .error e
    | .ok (s1, d1) => GALoop srt cfg fuel cross iterations s1 d1

/-- `TSP::GA`. -/
def GA (srt : StdSort) (cfg : Config) (fuel : Nat) (cross : CROSSOVER_SELECTION)
    (s : TSP) (draws : List Nat) : Except Fault (TSP × List Nat) :=
  GALoop srt cfg fuel cross cfg.ITERATIONS s draws

/-- `TSP::solve` without its timing and printing: `sortAndBest()` then `GA(cross)`. -/
def solve (srt : StdSort) (cfg : Config) (fuel : Nat) (cross : CROSSOVER_SELECTION)
    (s : TSP) (draws : List Nat) : Except Fault (TSP × List Nat) :=
  match sortAndBest srt s with
  | .error e => .error e
  | .ok s0 => GA srt cfg fuel cross s0 draws

/-- The state of `TSP::solve` after `g` iterations of the loop of `GA`; `solve` itself is the
case `g = ITERATIONS`. -/
def afterGenerations (srt : StdSort) (cfg : Config) (fuel : Nat) (cross : CROSSOVER_SELECTION)
    (g : Nat) (s : TSP) (draws : List Nat) : Except Fault (TSP × List Nat) :=
  match sortAndBest srt s with
  | .error e => .error e
  | .ok s0 => GALoop srt cfg fuel cross g s0 draws

/-- The tour `0, 1, ..., n - 1`. -/
def identityTour (n : Nat) : Tour := List.map Int.ofNat (List.range n)

/-- A valid tour over `n` nodes: a permutation of `0, ..., n - 1`. -/
def ValidTour (n : Nat) (t : Tour) : Prop := t.Perm (identityTour n)

instance (n : Nat) (t : Tour) : Decidable (ValidTour n t) := by
  unfold ValidTour; infer_instance

/-- The matrix is a full `n x n` matrix. -/
def FullMatrix (n : Nat) (m : List (List ℚ)) : Prop :=
  m.length = n ∧ ∀ row ∈ m, row.length = n

instance (n : Nat) (m : List (List ℚ)) : Decidable (FullMatrix n m) := by
  unfold FullMatrix; infer_instance

/-- All entries of the matrix are non-negative. -/
def NonNegMatrix (m : List (List ℚ)) : Prop :=
  ∀ row ∈ m, ∀ x ∈ row, 0 ≤ x

/-- The matrix is symmetric on the nodes `0, ..., n - 1`. -/
def SymmetricMatrix (n : Nat) (m : List (List ℚ)) : Prop :=
  ∀ i j : Nat, i < n → j < n → dist m i j = dist m j i

/-- One jump of the mapping-chain walk: the index in `p2` of the value `p1[pos]`. -/
def jump (p1 p2 : Tour) (pos : Nat) : Nat := p2.indexOf (node p1 pos)

/-- The index `i` is relocated by `PMX`: it lies in `[0, k]` and `p2[i]` is not among
`p1[0..k]`. -/
def Relocated (p1 p2 : Tour) (k i : Nat) : Prop :=
  i ≤ k ∧ node p2 i ∉ p1.take (k + 1)

/-- The parents of a crossover: two valid tours over `n` nodes and a cut point inside them. -/
structure Parents (n k : Nat) (p1 p2 : Tour) : Prop where
  valid1 : ValidTour n p1
  valid2 : ValidTour n p2
  cut : k < n

/-- The state of the child after the relocation loop of `PMX` has handled the indices below
`i`: the prefix of `p1` is intact, and a slot beyond the cut is either still empty or holds
the value of the relocated index whose walk ended there. -/
def RelocInv (fuel n k : Nat) (p1 p2 : Tour) (i : Nat) (res : Tour) : Prop :=
  res.length = n ∧ (∀ j, j ≤ k → node res j = node p1 j) ∧
  ∀ j, k < j → j < n →
    (node res j = -1 ∧
      ∀ i2, i2 < i → Relocated p1 p2 k i2 → walk p1 p2 k fuel i2 ≠ .ok j) ∨
    (∃ i2, i2 < i ∧ Relocated p1 p2 k i2 ∧ walk p1 p2 k fuel i2 = .ok j ∧
      node res j = node p2 i2)

/-- The shape of the child of `PMX`: the prefix of `p1`, and beyond the cut either the value
of `p2` at the same position (no walk ended there) or the relocated value whose walk ended
there. -/
def ChildShape (fuel n k : Nat) (p1 p2 child : Tour) : Prop :=
  child.length = n ∧ (∀ j, j ≤ k → node child j = node p1 j) ∧
  ∀ j, k < j → j < n →
    (node child j = node p2 j ∧
      ∀ i2, Relocated p1 p2 k i2 → walk p1 p2 k fuel i2 ≠ .ok j) ∨
    (∃ i2, Relocated p1 p2 k i2 ∧ walk p1 p2 k fuel i2 = .ok j ∧ node child j = node p2 i2)

/-- The length of the open path through the nodes of `l`: the sum of the consecutive edges. -/
def edgeSum (m : List (List ℚ)) : List Int → ℚ
  | [] => 0
  | [_] => 0
  | a :: b :: l => dist m a b + edgeSum m (b :: l)

/-- The instance of the end-to-end scenario: four cities, symmetric matrix, the four cyclic
rotations of `0 1 2 3` as initial population. -/
def fourCities : TSP :=
  { m_size := 4
    m_matrix := [[0, 1, 2, 3], [1, 0, 4, 5], [2, 4, 0, 6], [3, 5, 6, 0]]
    m_population := [[0, 1, 2, 3], [1, 2, 3, 0], [2, 3, 0, 1], [3, 0, 1, 2]]
    m_path := []
    m_record := 0 }

/-- An asymmetric instance over three cities. -/
def oneWay : TSP :=
  { m_size := 3
    m_matrix := [[0, 1, 5], [2, 0, 1], [1, 3, 0]]
    m_population := [[0, 1, 2], [2, 1, 0]]
    m_path := []
    m_record := 0 }

/-- A choice of the constants of `tsp.h` for the concrete runs below. -/
def demoConfig : Config :=
  { ITERATIONS := 2
    SELECTION_PART := 2
    ELITE := 1
    MUTATION_SIZE := 2
    MUTATION_PROBABILITY := 1 / 2 }

/-- The population is ordered by non-increasing fitness (best first), fitness being taken
against the population itself. -/
def SortedByFitness (s : TSP) : Prop :=
  s.m_population.Pairwise (fun a b => getFitness s b ≤ getFitness s a)

instance (s : TSP) : Decidable (SortedByFitness s) := by
  unfold SortedByFitness; infer_instance

/-- The instance `oneWay` with a ranked population of four tours, of lengths 3, 3, 10, 10. -/
def rankedOneWay : TSP :=
  { oneWay with m_population := [[0, 1, 2], [1, 2, 0], [2, 1, 0], [0, 2, 1]] }

/-- The constants of `demoConfig` with three elite tours. -/
def eliteConfig : Config := { demoConfig with ELITE := 3 }

theorem orderedInsert_perm (cmp : Tour → Tour → Bool) (a : Tour) (l : List Tour) :
    (orderedInsert cmp a l).Perm (a :: l) := by
  induction l with
  | nil => exact List.Perm.refl _
  | cons b l ih =>
    unfold orderedInsert
    by_cases h : cmp b a = true
    · rw [if_pos h]
      exact (ih.cons b).trans (List.Perm.swap a b l)
    · rw [if_neg h]

theorem insertionSort_perm (cmp : Tour → Tour → Bool) (l : List Tour) :
    (insertionSort cmp l).Perm l := by
  induction l with
  | nil => exact List.Perm.refl _
  | cons a l ih => exact (orderedInsert_perm cmp a _).trans (ih.cons a)

theorem orderedInsert_sorted (key : Tour → ℚ) (a : Tour) (l : List Tour)
    (h : l.Pairwise (fun x y => key y ≤ key x)) :
    (orderedInsert (greaterBy key) a l).Pairwise (fun x y => key y ≤ key x) := by
  induction l with
  | nil => simp [orderedInsert]
  | cons b l ih =>
    obtain ⟨hb, hl⟩ := List.pairwise_cons.1 h
    unfold orderedInsert
    by_cases hc : greaterBy key b a = true
    · rw [if_pos hc]
      have hlt : key b > key a := by simpa [greaterBy] using hc
      refine List.pairwise_cons.2 ⟨?_, ih hl⟩
      intro y hy
      rcases List.mem_cons.1 ((orderedInsert_perm _ a l).mem_iff.1 hy) with rfl | hy
      · exact le_of_lt hlt
      · exact hb y hy
    · rw [if_neg hc]
      have hle : key b ≤ key a := by simpa [greaterBy] using hc
      refine List.pairwise_cons.2 ⟨?_, h⟩
      intro y hy
      rcases List.mem_cons.1 hy with rfl | hy
      · exact hle
      · exact le_trans (hb y hy) hle

theorem insertionSort_sorted (key : Tour → ℚ) (l : List Tour) :
    (insertionSort (greaterBy key) l).Pairwise (fun x y => key y ≤ key x) := by
  induction l with
  | nil => exact List.Pairwise.nil
  | cons a l ih => exact orderedInsert_sorted key a _ ih

/-- Insertion sort meets the contract of `std::sort`. -/
def insertionStdSort : StdSort :=
  { run := insertionSort
    perm := fun key l => insertionSort_perm (greaterBy key) l
    sorted := insertionSort_sorted }

/-- The record of the state is the length of one of its tours, unless the population is
empty. -/
def RecordInPopulation (s : TSP) : Prop :=
  s.m_population = [] ∨ ∃ t ∈ s.m_population, s.m_record = getLenght s t

/-- The state of `fourCities` once `sortAndBest` has run: its first tour, of length 14, is the
record. -/
def fourCitiesRanked : TSP :=
  { fourCities with m_path := [0, 1, 2, 3], m_record := 14 }

/-- Draws for two generations on `fourCities` under `demoConfig` with tournament selection:
per generation two tournaments, the cut point, and the dice (and swaps) of two mutations. -/
def twoGenerationsDraws : List Nat :=
  [0, 1, 2, 3, 0, 0, 0, 1, 99, 99, 99, 1, 0, 3, 3, 2, 1, 99, 99, 99, 0, 2, 0]

/-- The population is ordered by non-decreasing length (shortest first). -/
def SortedByLength (s : TSP) : Prop :=
  s.m_population.Pairwise (fun a b => getLenght s a ≤ getLenght s b)

instance (s : TSP) : Decidable (SortedByLength s) := by
  unfold SortedByLength; infer_instance

/-- The instance `oneWay` with an unranked population of four tours, of lengths 10, 3, 10,
3. -/
def unrankedOneWay : TSP :=
  { oneWay with m_population := [[2, 1, 0], [0, 1, 2], [0, 2, 1], [1, 2, 0]] }

/-- The instance `oneWay` with a population of a single tour. -/
def singleTour : TSP :=
  { oneWay with m_population := [[0, 1, 2]] }

/-- The state reached from `unrankedOneWay` by `sortAndBest` and one generation with
proportional selection on the draws `49 0 0 0 1 99 99 99`. -/
def oneWayAfterOne : TSP :=
  { oneWay with
      m_population := [[0, 1, 2], [1, 2, 0], [1, 2, 0]]
      m_path := [0, 1, 2]
      m_record := 3 }

/-! ## Double arithmetic

The theorems above add and divide exact rationals. Where a claim is about the outcome of a
comparison of `double` values, the functions below redo `getLenght` and `getFitness` with
every `+`, `/` and `-` rounded to the nearest binary64 value (ties to even). The rounding is
that of IEEE 754 for finite normal numbers; overflow, subnormal numbers, infinities and NaN
are not modelled and do not occur in the instances evaluated. -/

/-- The power `2^e` as an exact rational. -/
def pow2 (e : Int) : ℚ :=
  if 0 ≤ e then ((2 ^ e.toNat : Nat) : ℚ) else 1 / ((2 ^ (-e).toNat : Nat) : ℚ)

/-- The number of binary digits of `n`, found by halving at most `fuel` times. -/
def bitLength : Nat → Nat → Nat
  | 0, _ => 0
  | fuel + 1, n => if n = 0 then 0 else bitLength fuel (n / 2) + 1

/-- The integer part of the binary logarithm of `n > 0`. -/
def log2Floor (n : Nat) : Nat := bitLength n n - 1

/-- The binary exponent of a positive rational `q`: the `e` with `2^e <= q < 2^(e+1)`. It is
the difference of the logarithms of numerator and denominator, or one less. -/
def binaryExponent (q : ℚ) : Int :=
  if pow2 ((log2Floor q.num.natAbs : Int) - (log2Floor q.den : Int)) ≤ q then
    (log2Floor q.num.natAbs : Int) - (log2Floor q.den : Int)
  else (log2Floor q.num.natAbs : Int) - (log2Floor q.den : Int) - 1

/-- The integer nearest to `x`, ties to the even one. -/
def nearestEven (x : ℚ) : Int :=
  if x - (Rat.floor x : ℚ) < 1 / 2 then Rat.floor x
  else if x - (Rat.floor x : ℚ) > 1 / 2 then Rat.floor x + 1
  else if Rat.floor x % 2 = 0 then Rat.floor x
  else Rat.floor x + 1

/-- A positive rational rounded to 53 significant bits, to nearest, ties to even. -/
def roundPositive (q : ℚ) : ℚ :=
  (nearestEven (q / pow2 (binaryExponent q - 52)) : ℚ) * pow2 (binaryExponent q - 52)

/-- The binary64 value nearest to `q` (finite normal range). -/
def roundDouble (q : ℚ) : ℚ :=
  if q = 0 then 0 else if 0 < q then roundPositive q else -roundPositive (-q)

/-- `TSP::getLenght` in double arithmetic: every `result += ...` is rounded. -/
def getLenghtDouble (s : TSP) (path : Tour) : ℚ :=
  roundDouble ((List.range (s.m_size - 1)).foldl
      (fun result i => roundDouble (result + dist s.m_matrix (node path i) (node path (i + 1))))
      0
    + dist s.m_matrix (node path (s.m_size - 1)) (node path 0))

/-- The accumulator `sum` of `TSP::getFitness` in double arithmetic. -/
def totalLenghtDouble (s : TSP) : ℚ :=
  s.m_population.foldl (fun sum i => roundDouble (sum + getLenghtDouble s i)) 0

/-- `TSP::getFitness` in double arithmetic: `1.0 - getLenght(path) / sum`, the quotient and
the difference rounded. -/
def getFitnessDouble (s : TSP) (path : Tour) : ℚ :=
  roundDouble (1 - roundDouble (getLenghtDouble s path / totalLenghtDouble s))

/-- The choice made by one round of `TSP::tournament` for the drawn indices `a`, `b`, with the
fitness compared in double arithmetic. -/
def tournamentChoiceDouble (s : TSP) (a b : Int) : Except Fault Tour :=
  match vecAt s.m_population a, vecAt s.m_population b with
  | .ok ta, .ok tb =>
    if getFitnessDouble s ta > getFitnessDouble s tb then .ok ta else .ok tb
  | _, _ => .error .outOfBounds

/-- Three cities with distances near `2^52`: the tour `0 1 2` has length `2^52`, the tour
`0 2 1` has length `2^52 + 1`; four tours in the population. -/
def hugeOneWay : TSP :=
  { m_size := 3
    m_matrix := [[0, 4503599627370494, 4503599627370494], [1, 0, 1], [1, 2, 0]]
    m_population := [[0, 1, 2], [0, 2, 1], [1, 2, 0], [2, 1, 0]]
    m_path := []
    m_record := 0 }

/-- A symmetric instance over four cities whose distances are the binary64 values nearest to
the decimals `0.1`, `0.5`, `0.3`, `0.6`, `0.4`. -/
def decimalCities : TSP :=
  { m_size := 4
    m_matrix :=
      [[0, roundDouble (1 / 10), roundDouble (5 / 10), roundDouble (3 / 10)],
       [roundDouble (1 / 10), 0, roundDouble (1 / 10), roundDouble (6 / 10)],
       [roundDouble (5 / 10), roundDouble (1 / 10), 0, roundDouble (4 / 10)],
       [roundDouble (3 / 10), roundDouble (6 / 10), roundDouble (4 / 10), 0]]
    m_population := [[0, 1, 2, 3], [3, 2, 1, 0]]
    m_path := []
    m_record := 0 }

/-! ## Reading and writing vector slots -/

theorem node_eq_getElem (t : Tour) (i : Nat) (h : i < t.length) : node t i = t[i] := by
  unfold node
  exact List.getD_eq_getElem t 0 h

theorem getElem?_eq_node (t : Tour) (i : Nat) (h : i < t.length) : t[i]? = some (node t i) := by
  rw [node_eq_getElem t i h]
  exact List.getElem?_eq_getElem h

theorem node_mem (t : Tour) (i : Nat) (h : i < t.length) : node t i ∈ t := by
  rw [node_eq_getElem t i h]
  exact List.getElem_mem h

theorem exists_node_of_mem {t : Tour} {v : Int} (h : v ∈ t) :
    ∃ i, i < t.length ∧ node t i = v := by
  obtain ⟨i, hi, hv⟩ := List.getElem_of_mem h
  exact ⟨i, hi, by rw [node_eq_getElem t i hi]; exact hv⟩

theorem node_inj {t : Tour} (hnd : t.Nodup) {i j : Nat} (hi : i < t.length) (hj : j < t.length)
    (h : node t i = node t j) : i = j := by
  rw [node_eq_getElem t i hi, node_eq_getElem t j hj] at h
  exact (hnd.getElem_inj_iff).1 h

theorem node_set_self (t : Tour) (pos : Nat) (v : Int) (h : pos < t.length) :
    node (t.set pos v) pos = v := by
  rw [node_eq_getElem _ _ (by simpa using h)]
  simp

theorem node_set_ne (t : Tour) (pos j : Nat) (v : Int) (h : pos ≠ j) :
    node (t.set pos v) j = node t j := by
  unfold node
  simp [List.getD_eq_getElem?_getD, List.getElem?_set_ne h]

theorem node_indexOf {t : Tour} {v : Int} (h : v ∈ t) : node t (t.indexOf v) = v := by
  have hlt : t.indexOf v < t.length := List.indexOf_lt_length.2 h
  rw [node_eq_getElem t _ hlt]
  exact List.getElem_indexOf hlt

theorem mem_take_iff_node (t : Tour) (k : Nat) (v : Int) :
    v ∈ t.take (k + 1) ↔ ∃ j, j ≤ k ∧ j < t.length ∧ node t j = v := by
  rw [List.mem_take_iff_getElem]
  constructor
  · rintro ⟨i, hi, hv⟩
    have h1 : i < k + 1 := (lt_min_iff.1 hi).1
    have h2 : i < t.length := (lt_min_iff.1 hi).2
    exact ⟨i, by omega, h2, by rw [node_eq_getElem t i h2]; exact hv⟩
  · rintro ⟨j, hj, hlt, hv⟩
    exact ⟨j, lt_min_iff.2 ⟨by omega, hlt⟩, by rw [← hv, node_eq_getElem t j hlt]⟩

/-! ## Valid tours -/

theorem mem_identityTour (n : Nat) (v : Int) : v ∈ identityTour n ↔ 0 ≤ v ∧ v < n := by
  unfold identityTour
  simp only [List.mem_map, List.mem_range]
  constructor
  · rintro ⟨a, ha, rfl⟩
    exact ⟨Int.ofNat_nonneg a, Int.ofNat_lt.2 ha⟩
  · rintro ⟨h0, hlt⟩
    refine ⟨v.toNat, ?_, ?_⟩
    · omega
    · simp [Int.toNat_of_nonneg h0]

theorem identityTour_nodup (n : Nat) : (identityTour n).Nodup := by
  unfold identityTour
  exact (List.nodup_range n).map (fun a b h => by simpa using h)

theorem identityTour_length (n : Nat) : (identityTour n).length = n := by
  simp [identityTour]

theorem ValidTour.length_eq {n : Nat} {t : Tour} (h : ValidTour n t) : t.length = n := by
  rw [List.Perm.length_eq h, identityTour_length]

theorem ValidTour.nodup {n : Nat} {t : Tour} (h : ValidTour n t) : t.Nodup :=
  (List.Perm.nodup_iff h).2 (identityTour_nodup n)

theorem ValidTour.mem_iff {n : Nat} {t : Tour} (h : ValidTour n t) (v : Int) :
    v ∈ t ↔ 0 ≤ v ∧ v < n := by
  rw [List.Perm.mem_iff h, mem_identityTour]

/-- A sequence of `n` slots in which every node `0, ..., n - 1` occurs is a valid tour. -/
theorem validTour_of_covers {n : Nat} {t : Tour} (hlen : t.length = n)
    (hcov : ∀ v : Int, 0 ≤ v → v < n → v ∈ t) : ValidTour n t := by
  have hsub : identityTour n ⊆ t := by
    intro v hv
    obtain ⟨h0, h1⟩ := (mem_identityTour n v).1 hv
    exact hcov v h0 h1
  have hsp := List.subperm_of_subset (identityTour_nodup n) hsub
  exact (hsp.perm_of_length_le (by rw [hlen, identityTour_length])).symm

/-! ## The mapping-chain walk of PMX -/

theorem walk_of_gt (p1 p2 : Tour) (k fuel pos : Nat) (h : k < pos) :
    walk p1 p2 k fuel pos = .ok pos := by
  cases fuel <;> simp [walk, Nat.not_le.2 h]

theorem walk_succ (p1 p2 : Tour) (k fuel pos : Nat) (hk : pos ≤ k) (hlt : pos < p1.length) :
    walk p1 p2 k (fuel + 1) pos = walk p1 p2 k fuel (jump p1 p2 pos) := by
  simp [walk, hk, getElem?_eq_node p1 pos hlt, jump]

theorem Parents.node1_mem2 {n k : Nat} {p1 p2 : Tour} (H : Parents n k p1 p2) {x : Nat}
    (hx : x < n) : node p1 x ∈ p2 := by
  have h1 : node p1 x ∈ p1 := node_mem p1 x (by rw [H.valid1.length_eq]; exact hx)
  exact (H.valid2.mem_iff _).2 ((H.valid1.mem_iff _).1 h1)

theorem Parents.jump_lt {n k : Nat} {p1 p2 : Tour} (H : Parents n k p1 p2) {x : Nat}
    (hx : x < n) : jump p1 p2 x < n := by
  have h := List.indexOf_lt_length.2 (H.node1_mem2 hx)
  rw [H.valid2.length_eq] at h
  exact h

theorem Parents.node_jump {n k : Nat} {p1 p2 : Tour} (H : Parents n k p1 p2) {x : Nat}
    (hx : x < n) : node p2 (jump p1 p2 x) = node p1 x :=
  node_indexOf (H.node1_mem2 hx)

theorem Parents.jump_inj {n k : Nat} {p1 p2 : Tour} (H : Parents n k p1 p2) {x y : Nat}
    (hx : x < n) (hy : y < n) (h : jump p1 p2 x = jump p1 p2 y) : x = y := by
  have hv : node p1 x = node p1 y :=
    (List.indexOf_inj (H.node1_mem2 hx) (H.node1_mem2 hy)).1 h
  exact node_inj H.valid1.nodup (by rw [H.valid1.length_eq]; exact hx)
    (by rw [H.valid1.length_eq]; exact hy) hv

/-- The position a jump from inside the cut lands on holds, in `p2`, a value of `p1[0..k]`. -/
theorem Parents.jump_mem_take {n k : Nat} {p1 p2 : Tour} (H : Parents n k p1 p2) {y : Nat}
    (hy : y ≤ k) : node p2 (jump p1 p2 y) ∈ p1.take (k + 1) := by
  have hyn : y < n := lt_of_le_of_lt hy H.cut
  rw [H.node_jump hyn, mem_take_iff_node]
  exact ⟨y, hy, by rw [H.valid1.length_eq]; exact hyn, rfl⟩

/-- No jump from inside the cut lands on a relocated index. -/
theorem Parents.jump_ne_relocated {n k : Nat} {p1 p2 : Tour} (H : Parents n k p1 p2) {i : Nat}
    (hi : Relocated p1 p2 k i) {y : Nat} (hy : y ≤ k) : jump p1 p2 y ≠ i := by
  intro h
  apply hi.2
  rw [← h]
  exact H.jump_mem_take hy

theorem length_le_of_nodup_le {vis : List Nat} {k : Nat} (hnd : vis.Nodup)
    (hle : ∀ x ∈ vis, x ≤ k) : vis.length ≤ k + 1 := by
  have hsub : vis ⊆ List.range (k + 1) := by
    intro x hx
    exact List.mem_range.2 (Nat.lt_succ_of_le (hle x hx))
  have h := (List.subperm_of_subset hnd hsub).length_le
  simpa using h

/-- The walk, started where the visited positions `vis` cannot be re-entered, ends beyond
the cut as soon as the fuel covers the positions of the cut not yet visited. -/
theorem Parents.walk_visited {n k : Nat} {p1 p2 : Tour} (H : Parents n k p1 p2) :
    ∀ (fuel : Nat) (vis : List Nat) (pos : Nat), vis.Nodup → (∀ x ∈ vis, x ≤ k) → pos ∉ vis →
      (∀ y, y ≤ k → y ∉ vis → jump p1 p2 y ∉ pos :: vis) →
      (pos ≤ k ∨ ∃ y, y ≤ k ∧ pos = jump p1 p2 y) →
      k + 1 ≤ vis.length + fuel →
      ∃ r, walk p1 p2 k fuel pos = .ok r ∧ k < r ∧ ∃ y, y ≤ k ∧ r = jump p1 p2 y := by
  intro fuel
  induction fuel with
  | zero =>
    intro vis pos hnd hle hpos _ hprov hlen
    have hgt : k < pos := by
      by_contra hcon
      have hposk : pos ≤ k := Nat.le_of_not_lt hcon
      have h1 : (pos :: vis).length ≤ k + 1 :=
        length_le_of_nodup_le (List.nodup_cons.2 ⟨hpos, hnd⟩) (by
          intro x hx
          rcases List.mem_cons.1 hx with rfl | hx
          · exact hposk
          · exact hle x hx)
      simp only [List.length_cons] at h1
      omega
    refine ⟨pos, walk_of_gt p1 p2 k 0 pos hgt, hgt, ?_⟩
    rcases hprov with h | h
    · omega
    · exact h
  | succ fuel ih =>
    intro vis pos hnd hle hpos hinv hprov hlen
    by_cases hposk : pos ≤ k
    · have hposn : pos < n := lt_of_le_of_lt hposk H.cut
      rw [walk_succ p1 p2 k fuel pos hposk (by rw [H.valid1.length_eq]; exact hposn)]
      apply ih (pos :: vis) (jump p1 p2 pos) (List.nodup_cons.2 ⟨hpos, hnd⟩)
      · intro x hx
        rcases List.mem_cons.1 hx with rfl | hx
        · exact hposk
        · exact hle x hx
      · exact hinv pos hposk hpos
      · intro y hy hyvis hmem
        have hy1 : y ≠ pos := fun h => hyvis (h ▸ List.mem_cons_self _ _)
        have hy2 : y ∉ vis := fun h => hyvis (List.mem_cons_of_mem _ h)
        rcases List.mem_cons.1 hmem with h | h
        · exact hy1 (H.jump_inj (lt_of_le_of_lt hy H.cut) hposn h)
        · exact hinv y hy hy2 h
      · exact Or.inr ⟨pos, hposk, rfl⟩
      · simp only [List.length_cons]
        omega
    · have hgt : k < pos := Nat.lt_of_not_le hposk
      refine ⟨pos, walk_of_gt p1 p2 k _ pos hgt, hgt, ?_⟩
      rcases hprov with h | h
      · omega
      · exact h

/-- The walk from a relocated index ends, within `k + 1` jumps, at a position beyond the cut
that holds in `p2` a value of `p1[0..k]`. -/
theorem Parents.walk_relocated {n k : Nat} {p1 p2 : Tour} (H : Parents n k p1 p2) {i : Nat}
    (hi : Relocated p1 p2 k i) {fuel : Nat} (hfuel : k + 1 ≤ fuel) :
    ∃ r, walk p1 p2 k fuel i = .ok r ∧ k < r ∧ r < n ∧ node p2 r ∈ p1.take (k + 1) := by
  obtain ⟨r, hr, hk, y, hy, hry⟩ := H.walk_visited fuel [] i List.nodup_nil
    (by intro x hx; cases hx) (by intro h; cases h)
    (by
      intro y hy _ hmem
      rcases List.mem_cons.1 hmem with h | h
      · exact H.jump_ne_relocated hi hy h
      · cases h)
    (Or.inl hi.1) (by simpa using hfuel)
  refine ⟨r, hr, hk, ?_, ?_⟩
  · rw [hry]
    exact H.jump_lt (lt_of_le_of_lt hy H.cut)
  · rw [hry]
    exact H.jump_mem_take hy

/-- A finished walk is an iteration of `jump` that stays inside the cut until its last jump. -/
theorem Parents.walk_iterate {n k : Nat} {p1 p2 : Tour} (H : Parents n k p1 p2) :
    ∀ (fuel x r : Nat), walk p1 p2 k fuel x = .ok r →
      ∃ m, (jump p1 p2)^[m] x = r ∧ ∀ j, j < m → (jump p1 p2)^[j] x ≤ k := by
  intro fuel
  induction fuel with
  | zero =>
    intro x r h
    by_cases hx : x ≤ k
    · simp [walk, hx] at h
    · simp only [walk, hx, if_false, Except.ok.injEq] at h
      exact ⟨0, h, by intro j hj; omega⟩
  | succ fuel ih =>
    intro x r h
    by_cases hx : x ≤ k
    · rw [walk_succ p1 p2 k fuel x hx
        (by rw [H.valid1.length_eq]; exact lt_of_le_of_lt hx H.cut)] at h
      obtain ⟨m, hm, hb⟩ := ih _ _ h
      refine ⟨m + 1, by rw [Function.iterate_succ_apply]; exact hm, ?_⟩
      intro j hj
      cases j with
      | zero => exact hx
      | succ j =>
        rw [Function.iterate_succ_apply]
        exact hb j (by omega)
    · rw [walk_of_gt p1 p2 k _ x (Nat.lt_of_not_le hx)] at h
      simp only [Except.ok.injEq] at h
      exact ⟨0, h, by intro j hj; omega⟩

/-- Two chains of jumps that meet started at the same index, unless one of the starting
indices is itself the landing position of a jump from inside the cut. -/
theorem Parents.iterate_meet {n k : Nat} {p1 p2 : Tour} (H : Parents n k p1 p2) :
    ∀ (m m2 x x2 : Nat), (∀ j, j < m → (jump p1 p2)^[j] x ≤ k) →
      (∀ j, j < m2 → (jump p1 p2)^[j] x2 ≤ k) →
      (jump p1 p2)^[m] x = (jump p1 p2)^[m2] x2 →
      x = x2 ∨ (∃ y, y ≤ k ∧ x = jump p1 p2 y) ∨ (∃ y, y ≤ k ∧ x2 = jump p1 p2 y) := by
  intro m
  induction m with
  | zero =>
    intro m2 x x2 _ hb2 h
    cases m2 with
    | zero => exact Or.inl h
    | succ m2 =>
      rw [Function.iterate_succ_apply'] at h
      exact Or.inr (Or.inl ⟨_, hb2 m2 (by omega), h⟩)
  | succ m ih =>
    intro m2 x x2 hb hb2 h
    cases m2 with
    | zero =>
      rw [Function.iterate_succ_apply'] at h
      exact Or.inr (Or.inr ⟨_, hb m (by omega), h.symm⟩)
    | succ m2 =>
      rw [Function.iterate_succ_apply', Function.iterate_succ_apply'] at h
      have h1 := hb m (by omega)
      have h2 := hb2 m2 (by omega)
      have heq := H.jump_inj (lt_of_le_of_lt h1 H.cut) (lt_of_le_of_lt h2 H.cut) h
      exact ih m2 x x2 (fun j hj => hb j (by omega)) (fun j hj => hb2 j (by omega)) heq

/-- Distinct relocated indices are walked to distinct positions. -/
theorem Parents.walk_inj {n k : Nat} {p1 p2 : Tour} (H : Parents n k p1 p2) {i i2 : Nat}
    (hi : Relocated p1 p2 k i) (hi2 : Relocated p1 p2 k i2) {fuel r : Nat}
    (h : walk p1 p2 k fuel i = .ok r) (h2 : walk p1 p2 k fuel i2 = .ok r) : i = i2 := by
  obtain ⟨m, hm, hb⟩ := H.walk_iterate fuel i r h
  obtain ⟨m2, hm2, hb2⟩ := H.walk_iterate fuel i2 r h2
  rcases H.iterate_meet m m2 i i2 hb hb2 (hm.trans hm2.symm) with h | ⟨y, hy, h⟩ | ⟨y, hy, h⟩
  · exact h
  · exact absurd h.symm (H.jump_ne_relocated hi hy)
  · exact absurd h.symm (H.jump_ne_relocated hi2 hy)

/-! ## The relocation loop and the fill loop of PMX -/

theorem node_cons_zero (x : Int) (t : Tour) : node (x :: t) 0 = x := rfl

theorem node_cons_succ (x : Int) (t : Tour) (j : Nat) : node (x :: t) (j + 1) = node t j := rfl

theorem initChild_length (p1 : Tour) (k : Nat) : (initChild p1 k).length = p1.length := by
  simp [initChild]

theorem node_initChild (p1 : Tour) (k j : Nat) (h : j < p1.length) :
    node (initChild p1 k) j = if j ≤ k then node p1 j else -1 := by
  rw [node_eq_getElem _ _ (by rw [initChild_length]; exact h)]
  simp [initChild]

theorem Parents.node2_nonneg {n k : Nat} {p1 p2 : Tour} (H : Parents n k p1 p2) {i : Nat}
    (hi : i < n) : 0 ≤ node p2 i :=
  ((H.valid2.mem_iff _).1 (node_mem p2 i (by rw [H.valid2.length_eq]; exact hi))).1

theorem Parents.relocInv_init {n k : Nat} {p1 p2 : Tour} (H : Parents n k p1 p2) (fuel : Nat) :
    RelocInv fuel n k p1 p2 0 (initChild p1 k) := by
  have hlen := H.valid1.length_eq
  refine ⟨by rw [initChild_length, hlen], ?_, ?_⟩
  · intro j hj
    rw [node_initChild p1 k j (by rw [hlen]; exact lt_of_le_of_lt hj H.cut), if_pos hj]
  · intro j hkj hjn
    left
    refine ⟨?_, by intro i2 h; omega⟩
    rw [node_initChild p1 k j (by rw [hlen]; exact hjn), if_neg (by omega)]

/-- While the relocation loop runs, the value `p2[i]` is found in the child exactly when it is
among `p1[0..k]`. -/
theorem Parents.mem_res_iff {n k : Nat} {p1 p2 : Tour} (H : Parents n k p1 p2) {fuel i : Nat}
    {res : Tour} (hinv : RelocInv fuel n k p1 p2 i res) (hi : i ≤ k) :
    node p2 i ∈ res ↔ node p2 i ∈ p1.take (k + 1) := by
  obtain ⟨hlen, hpre, hpost⟩ := hinv
  have hin : i < n := lt_of_le_of_lt hi H.cut
  constructor
  · intro hmem
    obtain ⟨j, hj, hv⟩ := exists_node_of_mem hmem
    rw [hlen] at hj
    by_cases hjk : j ≤ k
    · rw [mem_take_iff_node]
      exact ⟨j, hjk, by rw [H.valid1.length_eq]; exact hj, by rw [← hpre j hjk]; exact hv⟩
    · exfalso
      rcases hpost j (by omega) hj with ⟨hneg, _⟩ | ⟨i2, hi2, _, _, hval⟩
      · have h0 := H.node2_nonneg hin
        rw [← hv, hneg] at h0
        omega
      · have hi2n : i2 < n := by omega
        have := node_inj H.valid2.nodup (by rw [H.valid2.length_eq]; exact hi2n)
          (by rw [H.valid2.length_eq]; exact hin) (hval.symm.trans hv)
        omega
  · intro hmem
    obtain ⟨j, hjk, hj, hv⟩ := (mem_take_iff_node p1 k _).1 hmem
    rw [← hv, ← hpre j hjk]
    exact node_mem res j (by rw [hlen]; exact lt_of_le_of_lt hjk H.cut)

/-- The relocation loop finishes on valid parents, with its invariant at the end of the cut. -/
theorem Parents.relocate_inv {n k : Nat} {p1 p2 : Tour} (H : Parents n k p1 p2) {fuel : Nat}
    (hfuel : k + 1 ≤ fuel) :
    ∀ (cnt i : Nat) (res : Tour), i + cnt = k + 1 → RelocInv fuel n k p1 p2 i res →
      ∃ out, relocate fuel p1 p2 k (List.range' i cnt) res = .ok out ∧
        RelocInv fuel n k p1 p2 (k + 1) out := by
  intro cnt
  induction cnt with
  | zero =>
    intro i res hi hinv
    have : i = k + 1 := by omega
    subst this
    exact ⟨res, rfl, hinv⟩
  | succ cnt ih =>
    intro i res hi hinv
    have hik : i ≤ k := by omega
    have hin : i < n := lt_of_le_of_lt hik H.cut
    rw [List.range'_succ]
    simp only [relocate, getElem?_eq_node p2 i (by rw [H.valid2.length_eq]; exact hin)]
    by_cases hmem : node p2 i ∈ res
    · rw [if_pos hmem]
      apply ih (i + 1) res (by omega)
      obtain ⟨hlen, hpre, hpost⟩ := hinv
      have hnot : ¬ Relocated p1 p2 k i := fun h =>
        h.2 ((H.mem_res_iff ⟨hlen, hpre, hpost⟩ hik).1 hmem)
      refine ⟨hlen, hpre, ?_⟩
      intro j hkj hjn
      rcases hpost j hkj hjn with ⟨hneg, hno⟩ | ⟨i2, hi2, hrel, hw, hval⟩
      · left
        refine ⟨hneg, ?_⟩
        intro i2 hi2 hrel
        rcases Nat.lt_succ_iff_lt_or_eq.1 hi2 with h | h
        · exact hno i2 h hrel
        · exact absurd (h ▸ hrel) hnot
      · right
        exact ⟨i2, by omega, hrel, hw, hval⟩
    · rw [if_neg hmem]
      have hrel : Relocated p1 p2 k i :=
        ⟨hik, fun h => hmem ((H.mem_res_iff hinv hik).2 h)⟩
      obtain ⟨pos, hw, hkpos, hposn, _⟩ := H.walk_relocated hrel hfuel
      obtain ⟨hlen, hpre, hpost⟩ := hinv
      simp only [hw]
      rw [if_pos (by rw [hlen]; exact hposn)]
      apply ih (i + 1) _ (by omega)
      refine ⟨by simpa using hlen, ?_, ?_⟩
      · intro j hj
        rw [node_set_ne res pos j _ (by omega)]
        exact hpre j hj
      · intro j hkj hjn
        by_cases hjp : j = pos
        · right
          subst hjp
          exact ⟨i, by omega, hrel, hw, node_set_self res j _ (by rw [hlen]; exact hjn)⟩
        · rw [node_set_ne res pos j _ (fun h => hjp h.symm)]
          rcases hpost j hkj hjn with ⟨hneg, hno⟩ | ⟨i2, hi2, hrel2, hw2, hval⟩
          · left
            refine ⟨hneg, ?_⟩
            intro i2 hi2 hrel2
            rcases Nat.lt_succ_iff_lt_or_eq.1 hi2 with h | h
            · exact hno i2 h hrel2
            · subst h
              rw [hw]
              intro heq
              exact hjp (Except.ok.inj heq).symm
          · right
            exact ⟨i2, by omega, hrel2, hw2, hval⟩

/-- The fill loop finishes when `p2` is long enough, and replaces exactly the empty slots. -/
theorem fillEmpty_spec (p2 : Tour) :
    ∀ (todo : Tour) (i : Nat), i + todo.length ≤ p2.length →
      ∃ out, fillEmpty p2 i todo = .ok out ∧ out.length = todo.length ∧
        ∀ j, j < todo.length →
          node out j = if node todo j = -1 then node p2 (i + j) else node todo j := by
  intro todo
  induction todo with
  | nil =>
    intro i _
    exact ⟨[], rfl, rfl, by intro j hj; simp at hj⟩
  | cons x todo ih =>
    intro i hi
    simp only [List.length_cons] at hi
    obtain ⟨filled, hf, hlen, hnode⟩ := ih (i + 1) (by omega)
    simp only [fillEmpty, hf, getElem?_eq_node p2 i (by omega)]
    by_cases hx : x = -1
    · rw [if_pos hx]
      refine ⟨_, rfl, by simp [hlen], ?_⟩
      intro j hj
      cases j with
      | zero => simp [node_cons_zero, hx]
      | succ j =>
        simp only [node_cons_succ, List.length_cons] at hj ⊢
        rw [hnode j (by omega)]
        congr 2
        omega
    · rw [if_neg hx]
      refine ⟨_, rfl, by simp [hlen], ?_⟩
      intro j hj
      cases j with
      | zero => simp [node_cons_zero, hx]
      | succ j =>
        simp only [node_cons_succ, List.length_cons] at hj ⊢
        rw [hnode j (by omega)]
        congr 2
        omega

/-- On valid parents and with fuel for `k + 1` jumps, `PMX` returns a child of the shape
`ChildShape`. -/
theorem Parents.PMX_shape {n k : Nat} {p1 p2 : Tour} (H : Parents n k p1 p2) {fuel : Nat}
    (hfuel : k + 1 ≤ fuel) :
    ∃ child, PMX fuel p1 p2 k = .ok child ∧ ChildShape fuel n k p1 p2 child := by
  obtain ⟨res, hres, hlen, hpre, hpost⟩ :=
    H.relocate_inv hfuel (k + 1) 0 (initChild p1 k) (by omega) (H.relocInv_init fuel)
  rw [← List.range_eq_range'] at hres
  obtain ⟨child, hchild, hclen, hcnode⟩ :=
    fillEmpty_spec p2 res 0 (by rw [hlen, H.valid2.length_eq]; omega)
  refine ⟨child, by simp only [PMX, hres, hchild], by rw [hclen, hlen], ?_, ?_⟩
  · intro j hj
    have hjn : j < n := lt_of_le_of_lt hj H.cut
    rw [hcnode j (by rw [hlen]; exact hjn), hpre j hj, if_neg]
    have h0 : 0 ≤ node p1 j :=
      ((H.valid1.mem_iff _).1 (node_mem p1 j (by rw [H.valid1.length_eq]; exact hjn))).1
    omega
  · intro j hkj hjn
    rw [hcnode j (by rw [hlen]; exact hjn), Nat.zero_add]
    rcases hpost j hkj hjn with ⟨hneg, hno⟩ | ⟨i2, _, hrel, hw, hval⟩
    · left
      exact ⟨by rw [if_pos hneg], fun i2 hrel => hno i2 (by have := hrel.1; omega) hrel⟩
    · right
      refine ⟨i2, hrel, hw, ?_⟩
      rw [hval, if_neg]
      have h0 := H.node2_nonneg (lt_of_le_of_lt hrel.1 H.cut)
      omega

/-- A child of the shape `ChildShape` of valid parents is a valid tour. -/
theorem Parents.childShape_valid {n k : Nat} {p1 p2 : Tour} (H : Parents n k p1 p2) {fuel : Nat}
    (hfuel : k + 1 ≤ fuel) {child : Tour} (hc : ChildShape fuel n k p1 p2 child) :
    ValidTour n child := by
  obtain ⟨hlen, hpre, hpost⟩ := hc
  apply validTour_of_covers hlen
  intro v h0 hvn
  by_cases hA : v ∈ p1.take (k + 1)
  · obtain ⟨j, hjk, _, hv⟩ := (mem_take_iff_node p1 k v).1 hA
    rw [← hv, ← hpre j hjk]
    exact node_mem child j (by rw [hlen]; exact lt_of_le_of_lt hjk H.cut)
  · obtain ⟨i, hi, hv⟩ := exists_node_of_mem ((H.valid2.mem_iff v).2 ⟨h0, hvn⟩)
    rw [H.valid2.length_eq] at hi
    by_cases hik : i ≤ k
    · have hrel : Relocated p1 p2 k i := ⟨hik, by rw [hv]; exact hA⟩
      obtain ⟨pos, hw, hkpos, hposn, _⟩ := H.walk_relocated hrel hfuel
      rcases hpost pos hkpos hposn with ⟨_, hno⟩ | ⟨i2, hrel2, hw2, hval⟩
      · exact absurd hw (hno i hrel)
      · have : i2 = i := H.walk_inj hrel2 hrel hw2 hw
        subst this
        rw [← hv, ← hval]
        exact node_mem child pos (by rw [hlen]; exact hposn)
    · rcases hpost i (by omega) hi with ⟨hval, _⟩ | ⟨i2, hrel2, hw2, _⟩
      · rw [← hv, ← hval]
        exact node_mem child i (by rw [hlen]; exact hi)
      · exfalso
        obtain ⟨pos, hw, _, _, hmem⟩ := H.walk_relocated hrel2 hfuel
        rw [hw2] at hw
        have : i = pos := Except.ok.inj hw
        subst this
        rw [hv] at hmem
        exact hA hmem

/-- C1: for every size `n >= 3`, all valid tours `p1`, `p2` over `n` nodes and every cut point
`1 <= k <= n - 2`, `PMX(p1, p2, k)` returns (as soon as each walk may make `k + 1` jumps) a
sequence of length `n` that is a permutation of `0, ..., n - 1`: every node occurs exactly once
and no `-1` placeholder remains. -/
theorem PMX_permutation (n k fuel : Nat) (p1 p2 : Tour) (hn : 3 ≤ n) (h1 : ValidTour n p1)
    (h2 : ValidTour n p2) (hk1 : 1 ≤ k) (hk2 : k ≤ n - 2) (hfuel : k + 1 ≤ fuel) :
    ∃ child, PMX fuel p1 p2 k = .ok child ∧ child.length = n ∧
      child.Perm (identityTour n) ∧ (∀ v : Int, 0 ≤ v → v < n → child.count v = 1) ∧
      (-1 : Int) ∉ child := by
  have H : Parents n k p1 p2 := ⟨h1, h2, by omega⟩
  obtain ⟨child, hchild, hshape⟩ := H.PMX_shape hfuel
  have hvalid : ValidTour n child := H.childShape_valid hfuel hshape
  refine ⟨child, hchild, hvalid.length_eq, hvalid, ?_, ?_⟩
  · intro v h0 hv
    exact List.count_eq_one_of_mem hvalid.nodup ((hvalid.mem_iff v).2 ⟨h0, hv⟩)
  · intro hmem
    have := ((hvalid.mem_iff _).1 hmem).1
    omega

/-- Witness of C1: the parents `0..7` and `3 7 5 1 6 0 2 4` cut at `k = 3`. -/
theorem PMX_permutation_witness :
    ∃ child, PMX 4 [0, 1, 2, 3, 4, 5, 6, 7] [3, 7, 5, 1, 6, 0, 2, 4] 3 = .ok child ∧
      child.length = 8 ∧ child.Perm (identityTour 8) ∧
      (∀ v : Int, 0 ≤ v → v < (8 : Nat) → child.count v = 1) ∧ (-1 : Int) ∉ child :=
  PMX_permutation 8 3 4 [0, 1, 2, 3, 4, 5, 6, 7] [3, 7, 5, 1, 6, 0, 2, 4] (by decide)
    (by decide) (by decide) (by decide) (by decide) (by decide)

/-! ## Tour length and fitness -/

theorem foldl_add_eq_sum {α : Type} (g : α → ℚ) (l : List α) (init : ℚ) :
    l.foldl (fun r i => r + g i) init = init + (l.map g).sum := by
  induction l generalizing init with
  | nil => simp
  | cons a l ih => simp [List.foldl_cons, ih, add_assoc]

theorem getLenght_eq_sum (s : TSP) (path : Tour) :
    getLenght s path =
      ((List.range (s.m_size - 1)).map
          (fun i => dist s.m_matrix (node path i) (node path (i + 1)))).sum
        + dist s.m_matrix (node path (s.m_size - 1)) (node path 0) := by
  unfold getLenght
  rw [foldl_add_eq_sum, zero_add]

theorem dist_nonneg {m : List (List ℚ)} (h : NonNegMatrix m) (a b : Int) : 0 ≤ dist m a b := by
  unfold dist
  simp only [List.getD_eq_getElem?_getD]
  cases hrow : m[a.toNat]? with
  | none => simp
  | some row =>
    have hmem : row ∈ m := List.getElem?_mem hrow
    cases hx : row[b.toNat]? with
    | none => simp [hx]
    | some x => simpa [hx] using h row hmem x (List.getElem?_mem hx)

theorem getLenght_nonneg (s : TSP) (h : NonNegMatrix s.m_matrix) (path : Tour) :
    0 ≤ getLenght s path := by
  rw [getLenght_eq_sum]
  apply add_nonneg
  · apply List.sum_nonneg
    intro x hx
    obtain ⟨i, _, rfl⟩ := List.mem_map.1 hx
    exact dist_nonneg h _ _
  · exact dist_nonneg h _ _

theorem totalLenght_eq_sum (s : TSP) :
    totalLenght s = (s.m_population.map (getLenght s)).sum := by
  unfold totalLenght
  rw [foldl_add_eq_sum, zero_add]

theorem totalLenght_nonneg (s : TSP) (h : NonNegMatrix s.m_matrix) : 0 ≤ totalLenght s := by
  rw [totalLenght_eq_sum]
  apply List.sum_nonneg
  intro x hx
  obtain ⟨t, _, rfl⟩ := List.mem_map.1 hx
  exact getLenght_nonneg s h t

/-- With a positive total, fitness reverses the order of lengths. -/
theorem getFitness_lt_iff (s : TSP) (hpos : 0 < totalLenght s) (a b : Tour) :
    getFitness s b < getFitness s a ↔ getLenght s a < getLenght s b := by
  unfold getFitness
  rw [sub_lt_sub_iff_left, div_lt_div_iff_of_pos_right hpos]

theorem getFitness_le_iff (s : TSP) (hpos : 0 < totalLenght s) (a b : Tour) :
    getFitness s b ≤ getFitness s a ↔ getLenght s a ≤ getLenght s b := by
  unfold getFitness
  rw [sub_le_sub_iff_left, div_le_div_iff_of_pos_right hpos]

/-- C4: in a non-empty population with non-negative distances and non-zero total length, for
every two tours `a`, `b` of the population `getFitness(a) > getFitness(b)` exactly when
`getLenght(a) < getLenght(b)`; in particular a tour of smallest length has the largest
fitness. -/
theorem fitness_ranks_by_length (s : TSP) (a b : Tour) (hne : s.m_population ≠ [])
    (hnn : NonNegMatrix s.m_matrix) (htot : totalLenght s ≠ 0) (ha : a ∈ s.m_population)
    (hb : b ∈ s.m_population) :
    (getFitness s a > getFitness s b ↔ getLenght s a < getLenght s b) ∧
      ((∀ c ∈ s.m_population, getLenght s a ≤ getLenght s c) →
        ∀ c ∈ s.m_population, getFitness s c ≤ getFitness s a) := by
  have hpos : 0 < totalLenght s := lt_of_le_of_ne (totalLenght_nonneg s hnn) (Ne.symm htot)
  refine ⟨getFitness_lt_iff s hpos a b, ?_⟩
  intro hmin c hc
  exact (getFitness_le_iff s hpos a c).2 (hmin c hc)

/-- Witness of C4: the two tours of the instance `oneWay`, of lengths 3 and 10. -/
theorem fitness_ranks_by_length_witness :
    (getFitness oneWay [0, 1, 2] > getFitness oneWay [2, 1, 0] ↔
        getLenght oneWay [0, 1, 2] < getLenght oneWay [2, 1, 0]) ∧
      ((∀ c ∈ oneWay.m_population, getLenght oneWay [0, 1, 2] ≤ getLenght oneWay c) →
        ∀ c ∈ oneWay.m_population, getFitness oneWay c ≤ getFitness oneWay [0, 1, 2]) :=
  fitness_ranks_by_length oneWay [0, 1, 2] [2, 1, 0] (by decide)
    (by simp [NonNegMatrix, oneWay]) (by decide!) (by decide) (by decide)

/-! ## Rotation and reversal of a tour -/

theorem edgeSum_range (m : List (List ℚ)) (l : Tour) :
    ((List.range (l.length - 1)).map (fun i => dist m (node l i) (node l (i + 1)))).sum
      = edgeSum m l := by
  induction l with
  | nil => simp [edgeSum]
  | cons a l ih =>
    cases l with
    | nil => simp [edgeSum]
    | cons b l =>
      have hlen : (a :: b :: l).length - 1 = ((b :: l).length - 1) + 1 := by simp
      rw [hlen, List.range_succ_eq_map, List.map_cons, List.sum_cons, List.map_map, edgeSum,
        ← ih]
      rfl

theorem edgeSum_cons_cons (m : List (List ℚ)) (a b : Int) (l : Tour) :
    edgeSum m (a :: b :: l) = dist m a b + edgeSum m (b :: l) := rfl

theorem node_last_cons (a b : Int) (l : Tour) :
    node (a :: b :: l) ((a :: b :: l).length - 1) = node (b :: l) ((b :: l).length - 1) := rfl

theorem node_append_last (l : Tour) (c : Int) : node (l ++ [c]) ((l ++ [c]).length - 1) = c := by
  unfold node
  simp [List.getD_eq_getElem?_getD]

theorem edgeSum_append_singleton (m : List (List ℚ)) (l : Tour) (c : Int) (h : l ≠ []) :
    edgeSum m (l ++ [c]) = edgeSum m l + dist m (node l (l.length - 1)) c := by
  induction l with
  | nil => exact absurd rfl h
  | cons a l ih =>
    cases l with
    | nil => simp [edgeSum, node]
    | cons b l =>
      have hb := ih (by simp)
      rw [List.cons_append] at hb
      rw [List.cons_append, List.cons_append, edgeSum_cons_cons, edgeSum_cons_cons, hb,
        node_last_cons, add_assoc]

/-- The length of a tour that fills the instance is the open path closed at its first node. -/
theorem getLenght_eq_edgeSum (s : TSP) (a : Int) (l : Tour) (h : (a :: l).length = s.m_size) :
    getLenght s (a :: l) = edgeSum s.m_matrix ((a :: l) ++ [a]) := by
  rw [getLenght_eq_sum, ← h, edgeSum_range, edgeSum_append_singleton _ (a :: l) a (by simp)]
  rfl

theorem getLenght_rotate_one (s : TSP) (t : Tour) (h : t.length = s.m_size) :
    getLenght s (t.rotate 1) = getLenght s t := by
  cases t with
  | nil => rfl
  | cons a l =>
    cases l with
    | nil => simp
    | cons b l =>
      have hrot : (a :: b :: l).rotate 1 = b :: (l ++ [a]) := by
        simp [List.rotate_cons_succ]
      rw [hrot, getLenght_eq_edgeSum s b (l ++ [a]) (by simpa using h),
        getLenght_eq_edgeSum s a (b :: l) h]
      have h1 : (b :: (l ++ [a])) ++ [b] = ((b :: l) ++ [a]) ++ [b] := by simp
      rw [h1, edgeSum_append_singleton _ ((b :: l) ++ [a]) b (by simp), node_append_last,
        List.cons_append, List.cons_append, List.cons_append, edgeSum_cons_cons]
      ring

/-- C5: for an instance of size `n >= 2` with a full `n x n` matrix and a valid tour `t`,
`getLenght` is unchanged by every cyclic rotation of `t`. -/
theorem getLenght_rotate (s : TSP) (t : Tour) (r : Nat) (hn : 2 ≤ s.m_size)
    (hm : FullMatrix s.m_size s.m_matrix) (ht : ValidTour s.m_size t) :
    getLenght s (t.rotate r) = getLenght s t := by
  have hlen : t.length = s.m_size := ht.length_eq
  induction r with
  | zero => simp
  | succ r ih =>
    rw [← List.rotate_rotate, getLenght_rotate_one s _ (by rw [List.length_rotate]; exact hlen),
      ih]

/-- Witness of C5: the tour `0 1 2` of the asymmetric instance `oneWay`, rotated by one. -/
theorem getLenght_rotate_witness :
    getLenght oneWay ([0, 1, 2].rotate 1) = getLenght oneWay [0, 1, 2] :=
  getLenght_rotate oneWay [0, 1, 2] 1 (by decide) (by decide) (by decide)

theorem edgeSum_reverse (m : List (List ℚ)) (l : Tour)
    (hsym : ∀ x ∈ l, ∀ y ∈ l, dist m x y = dist m y x) :
    edgeSum m l.reverse = edgeSum m l := by
  induction l with
  | nil => rfl
  | cons a l ih =>
    cases l with
    | nil => rfl
    | cons b l =>
      have hb := ih (fun x hx y hy =>
        hsym x (List.mem_cons_of_mem _ hx) y (List.mem_cons_of_mem _ hy))
      have hne : (b :: l).reverse ≠ [] := by simp
      have hlast : node (b :: l).reverse ((b :: l).reverse.length - 1) = b := by
        rw [List.reverse_cons]
        exact node_append_last _ _
      rw [List.reverse_cons, edgeSum_append_singleton _ _ _ hne, hb, hlast, edgeSum_cons_cons,
        hsym b (by simp) a (by simp)]
      ring

theorem SymmetricMatrix.dist_comm {n : Nat} {m : List (List ℚ)} (h : SymmetricMatrix n m)
    {x y : Int} (hx0 : 0 ≤ x) (hx : x < n) (hy0 : 0 ≤ y) (hy : y < n) :
    dist m x y = dist m y x := by
  have := h x.toNat y.toNat (by omega) (by omega)
  rwa [Int.toNat_of_nonneg hx0, Int.toNat_of_nonneg hy0] at this

/-- C6 as it stands fails: on the asymmetric three-city instance `oneWay` the tour `0 1 2` has
length 3 and its reversal `2 1 0` has length 10. -/
theorem getLenght_reverse_asymmetric :
    ¬ ∀ (s : TSP) (t : Tour), 2 ≤ s.m_size → FullMatrix s.m_size s.m_matrix →
      NonNegMatrix s.m_matrix → ValidTour s.m_size t →
      getLenght s t.reverse = getLenght s t := by
  intro h
  have hrev := h oneWay [0, 1, 2] (by decide) (by decide) (by simp [NonNegMatrix, oneWay])
    (by decide)
  revert hrev
  decide!

/-- C6, amended: in exact arithmetic (the distances and their sums taken as exact numbers),
for an instance of size `n >= 2` whose full `n x n` matrix is symmetric, and every valid tour
`t`, `getLenght(reverse(t)) = getLenght(t)`. -/
theorem getLenght_reverse (s : TSP) (t : Tour) (hn : 2 ≤ s.m_size)
    (hm : FullMatrix s.m_size s.m_matrix) (hsym : SymmetricMatrix s.m_size s.m_matrix)
    (ht : ValidTour s.m_size t) : getLenght s t.reverse = getLenght s t := by
  have hlen : t.length = s.m_size := ht.length_eq
  cases t with
  | nil => rfl
  | cons a l =>
    have hrot : (a :: l).reverse = (a :: l.reverse).rotate 1 := by
      simp [List.rotate_cons_succ]
    have hlen2 : (a :: l.reverse).length = s.m_size := by simpa using hlen
    have hrev : ((a :: l) ++ [a]).reverse = (a :: l.reverse) ++ [a] := by simp
    rw [hrot, getLenght_rotate_one s _ hlen2, getLenght_eq_edgeSum s a l.reverse hlen2,
      getLenght_eq_edgeSum s a l hlen, ← hrev]
    apply edgeSum_reverse
    intro x hx y hy
    have hx2 : x ∈ a :: l := by
      rcases List.mem_append.1 hx with h | h
      · exact h
      · rw [List.mem_singleton.1 h]; exact List.mem_cons_self _ _
    have hy2 : y ∈ a :: l := by
      rcases List.mem_append.1 hy with h | h
      · exact h
      · rw [List.mem_singleton.1 h]; exact List.mem_cons_self _ _
    obtain ⟨hx0, hxn⟩ := (ht.mem_iff x).1 hx2
    obtain ⟨hy0, hyn⟩ := (ht.mem_iff y).1 hy2
    exact hsym.dist_comm hx0 hxn hy0 hyn

/-- Witness of C6, amended: the tour `0 1 2 3` of the symmetric instance `fourCities`. -/
theorem getLenght_reverse_witness :
    getLenght fourCities [0, 1, 2, 3].reverse = getLenght fourCities [0, 1, 2, 3] :=
  getLenght_reverse fourCities [0, 1, 2, 3] (by decide) (by decide)
    (by
      intro i j hi hj
      have hi4 : i < 4 := hi
      have hj4 : j < 4 := hj
      interval_cases i <;> interval_cases j <;> rfl)
    (by decide)

/-! ## Random draws -/

theorem randVal_range (a b : Int) (r : Nat) (h : a ≤ b) :
    a ≤ randVal a b r ∧ randVal a b r ≤ b := by
  unfold randVal
  have h1 : 0 ≤ (r : Int) % (b - a + 1) := Int.emod_nonneg _ (by omega)
  have h2 : (r : Int) % (b - a + 1) < b - a + 1 := Int.emod_lt_of_pos _ (by omega)
  omega

theorem rand_ok {a b : Int} {draws : List Nat} {v : Int} {rest : List Nat}
    (h : rand a b draws = .ok (v, rest)) :
    a ≤ b ∧ ∃ r, draws = r :: rest ∧ v = randVal a b r := by
  unfold rand at h
  by_cases hba : b < a
  · simp [hba] at h
  · rw [if_neg hba] at h
    cases draws with
    | nil => simp at h
    | cons r ds =>
      simp only [Except.ok.injEq, Prod.mk.injEq] at h
      exact ⟨by omega, r, by rw [h.2], h.1.symm⟩

theorem rand_cons (a b : Int) (r : Nat) (ds : List Nat) (h : a ≤ b) :
    rand a b (r :: ds) = .ok (randVal a b r, ds) := by
  simp [rand, not_lt.2 h]

/-- Whatever draws are left, `rand` returns once the list is extended by at most one draw. -/
theorem rand_extend (a b : Int) (h : a ≤ b) (draws : List Nat) :
    ∃ extra v rest, ∀ more, rand a b (draws ++ extra ++ more) = .ok (v, rest ++ more) := by
  cases draws with
  | nil => exact ⟨[0], randVal a b 0, [], fun more => by simp [rand_cons a b 0 _ h]⟩
  | cons r ds => exact ⟨[], randVal a b r, ds, fun more => by simp [rand_cons a b r _ h]⟩

theorem drawDistinct_ok {hi a : Int} :
    ∀ {draws : List Nat} {b : Int} {rest : List Nat},
      drawDistinct hi a draws = .ok (b, rest) → 0 ≤ b ∧ b ≤ hi ∧ a ≠ b := by
  intro draws
  induction draws with
  | nil =>
    intro b rest h
    simp [drawDistinct, rand] at h
    split at h <;> simp at h
  | cons r ds ih =>
    intro b rest h
    unfold drawDistinct at h
    by_cases hhi : hi < 0
    · simp [hhi] at h
    · rw [if_neg hhi] at h
      by_cases ha : a = randVal 0 hi r
      · rw [if_pos ha] at h
        exact ih h
      · rw [if_neg ha] at h
        simp only [Except.ok.injEq, Prod.mk.injEq] at h
        have := randVal_range 0 hi r (by omega)
        rw [← h.1]
        exact ⟨this.1, this.2, ha⟩

/-- The redraw loop ends once the list of draws is extended by one draw that differs from
`a`; such a draw exists when the range has at least two values. -/
theorem drawDistinct_extend (hi a : Int) (h : 1 ≤ hi) (draws : List Nat) :
    ∃ extra v rest, ∀ more,
      drawDistinct hi a (draws ++ extra ++ more) = .ok (v, rest ++ more) := by
  induction draws with
  | nil =>
    by_cases ha : a = 0
    · refine ⟨[1], randVal 0 hi 1, [], fun more => ?_⟩
      have h1 : randVal 0 hi 1 = 1 := by
        unfold randVal
        have : ((1 : Nat) : Int) % (hi - 0 + 1) = 1 := Int.emod_eq_of_lt (by omega) (by omega)
        omega
      simp [drawDistinct, h1, ha, not_lt.2 (show (0 : Int) ≤ hi by omega)]
    · refine ⟨[0], randVal 0 hi 0, [], fun more => ?_⟩
      have h0 : randVal 0 hi 0 = 0 := by simp [randVal]
      simp [drawDistinct, h0, ha, not_lt.2 (show (0 : Int) ≤ hi by omega)]
  | cons r ds ih =>
    by_cases ha : a = randVal 0 hi r
    · obtain ⟨extra, v, rest, hext⟩ := ih
      refine ⟨extra, v, rest, fun more => ?_⟩
      have := hext more
      simp only [List.cons_append, drawDistinct, not_lt.2 (show (0 : Int) ≤ hi by omega),
        if_false]
      rw [if_pos ha]
      exact this
    · refine ⟨[], randVal 0 hi r, ds, fun more => ?_⟩
      simp [drawDistinct, not_lt.2 (show (0 : Int) ≤ hi by omega), ha]

theorem drawPair_ok {hi : Int} {draws : List Nat} {a b : Int} {rest : List Nat}
    (h : drawPair hi draws = .ok (a, b, rest)) :
    0 ≤ a ∧ a ≤ hi ∧ 0 ≤ b ∧ b ≤ hi ∧ a ≠ b := by
  unfold drawPair at h
  cases h1 : rand 0 hi draws with
  | error e => simp [h1] at h
  | ok p =>
    obtain ⟨a1, d1⟩ := p
    simp only [h1] at h
    cases h2 : drawDistinct hi a1 d1 with
    | error e => simp [h2] at h
    | ok q =>
      obtain ⟨b1, d2⟩ := q
      simp only [h2, Except.ok.injEq, Prod.mk.injEq] at h
      obtain ⟨hle, r, _, hv⟩ := rand_ok h1
      have hr := randVal_range 0 hi r hle
      have hd := drawDistinct_ok h2
      rw [← h.1, ← h.2.1]
      exact ⟨by rw [hv]; exact hr.1, by rw [hv]; exact hr.2, hd.1, hd.2.1, hd.2.2⟩

/-- The pair of draws is obtained once the list of draws is extended suitably, whenever the
range has at least two values. -/
theorem drawPair_extend (hi : Int) (h : 1 ≤ hi) (draws : List Nat) :
    ∃ extra a b rest, ∀ more,
      drawPair hi (draws ++ extra ++ more) = .ok (a, b, rest ++ more) := by
  obtain ⟨e1, a, rest1, h1⟩ := rand_extend 0 hi (by omega) draws
  obtain ⟨e2, b, rest2, h2⟩ := drawDistinct_extend hi a h rest1
  refine ⟨e1 ++ e2, a, b, rest2, fun more => ?_⟩
  have h1m := h1 (e2 ++ more)
  have h2m := h2 more
  rw [List.append_assoc] at h2m
  unfold drawPair
  rw [← List.append_assoc draws e1 e2, List.append_assoc (draws ++ e1) e2 more, h1m]
  simp only [h2m]

/-! ## Mutation -/

theorem vecAt_ok {α : Type} {v : List α} {i : Int} {x : α} (h : vecAt v i = .ok x) :
    0 ≤ i ∧ v[i.toNat]? = some x := by
  unfold vecAt at h
  by_cases hi : i < 0
  · simp [hi] at h
  · rw [if_neg hi] at h
    cases hx : v[i.toNat]? with
    | none => simp [hx] at h
    | some y =>
      simp only [hx, Except.ok.injEq] at h
      exact ⟨by omega, by rw [h]⟩

theorem vecAt_of_lt {α : Type} (v : List α) (i : Int) (h0 : 0 ≤ i) (h : i < v.length) :
    ∃ x, vecAt v i = .ok x ∧ x ∈ v := by
  have hlt : i.toNat < v.length := by omega
  refine ⟨v[i.toNat], ?_, List.getElem_mem hlt⟩
  simp [vecAt, not_lt.2 h0, List.getElem?_eq_getElem hlt]

theorem set_perm_cons {α : Type} :
    ∀ (l : List α) (j : Nat) (x y : α), l[j]? = some y → (y :: l.set j x).Perm (x :: l) := by
  intro l
  induction l with
  | nil => intro j x y h; simp at h
  | cons z l ih =>
    intro j x y h
    cases j with
    | zero =>
      simp only [List.getElem?_cons_zero, Option.some.injEq] at h
      subst h
      exact List.Perm.swap _ _ _
    | succ j =>
      simp only [List.getElem?_cons_succ] at h
      simp only [List.set_cons_succ]
      exact (List.Perm.swap z y _).trans (((ih j x y h).cons z).trans (List.Perm.swap x z _))

/-- Exchanging two slots of a vector rearranges it. -/
theorem set_set_perm {α : Type} :
    ∀ (l : List α) (i j : Nat) (x y : α), l[i]? = some x → l[j]? = some y →
      ((l.set i y).set j x).Perm l := by
  intro l
  induction l with
  | nil => intro i j x y h; simp at h
  | cons z l ih =>
    intro i j x y hi hj
    cases i with
    | zero =>
      simp only [List.getElem?_cons_zero, Option.some.injEq] at hi
      subst hi
      cases j with
      | zero =>
        simp only [List.getElem?_cons_zero, Option.some.injEq] at hj
        subst hj
        simp
      | succ j =>
        simp only [List.getElem?_cons_succ] at hj
        simp only [List.set_cons_zero, List.set_cons_succ]
        exact set_perm_cons l j z y hj
    | succ i =>
      simp only [List.getElem?_cons_succ] at hi
      cases j with
      | zero =>
        simp only [List.getElem?_cons_zero, Option.some.injEq] at hj
        subst hj
        simp only [List.set_cons_zero, List.set_cons_succ]
        exact set_perm_cons l i z x hi
      | succ j =>
        simp only [List.getElem?_cons_succ] at hj
        simp only [List.set_cons_succ]
        exact (ih i j x y hi hj).cons z

theorem swapAt_perm {t swapped : Tour} {a b : Int} (h : swapAt t a b = .ok swapped) :
    swapped.Perm t := by
  unfold swapAt at h
  cases ha : vecAt t a with
  | error e => simp [ha] at h
  | ok x =>
    cases hb : vecAt t b with
    | error e => simp [ha, hb] at h
    | ok y =>
      simp only [ha, hb, Except.ok.injEq] at h
      rw [← h]
      exact set_set_perm t a.toNat b.toNat x y (vecAt_ok ha).2 (vecAt_ok hb).2

theorem swapAt_of_lt (t : Tour) (a b : Int) (ha0 : 0 ≤ a) (ha : a < t.length) (hb0 : 0 ≤ b)
    (hb : b < t.length) : ∃ swapped, swapAt t a b = .ok swapped := by
  obtain ⟨x, hx, _⟩ := vecAt_of_lt t a ha0 ha
  obtain ⟨y, hy, _⟩ := vecAt_of_lt t b hb0 hb
  exact ⟨(t.set a.toNat y).set b.toNat x, by simp only [swapAt, hx, hy]⟩

/-- Every finished run of the mutation loop returns a rearrangement of its input. -/
theorem mutationLoop_perm (cfg : Config) (size : Nat) :
    ∀ (count : Nat) (draws : List Nat) (result res : Tour) (rest : List Nat),
      mutationLoop cfg size count draws result = .ok (res, rest) → res.Perm result := by
  intro count
  induction count with
  | zero =>
    intro draws result res rest h
    simp only [mutationLoop, Except.ok.injEq, Prod.mk.injEq] at h
    rw [h.1]
  | succ count ih =>
    intro draws result res rest h
    unfold mutationLoop at h
    cases h1 : rand 1 100 draws with
    | error e => simp [h1] at h
    | ok p =>
      obtain ⟨r, d1⟩ := p
      simp only [h1] at h
      by_cases hdie : (r : ℚ) / 100 < cfg.MUTATION_PROBABILITY
      · rw [if_pos hdie] at h
        cases h2 : drawPair ((size : Int) - 1) d1 with
        | error e => simp [h2] at h
        | ok q =>
          obtain ⟨a, b, d3⟩ := q
          simp only [h2] at h
          cases h3 : swapAt result a b with
          | error e => simp [h3] at h
          | ok swapped =>
            simp only [h3] at h
            exact (ih _ _ _ _ h).trans (swapAt_perm h3)
      · rw [if_neg hdie] at h
        exact ih _ _ _ _ h

/-- On a tour of at least two nodes the mutation loop finishes once the list of draws is
extended suitably. -/
theorem mutationLoop_extend (cfg : Config) (size : Nat) (hsize : 2 ≤ size) :
    ∀ (count : Nat) (draws : List Nat) (result : Tour), result.length = size →
      ∃ more out, mutationLoop cfg size count (draws ++ more) result = .ok out := by
  intro count
  induction count with
  | zero =>
    intro draws result _
    exact ⟨[], _, rfl⟩
  | succ count ih =>
    intro draws result hlen
    obtain ⟨e1, r, rest1, h1⟩ := rand_extend 1 100 (by omega) draws
    by_cases hdie : (r : ℚ) / 100 < cfg.MUTATION_PROBABILITY
    · obtain ⟨e2, a, b, rest2, h2⟩ := drawPair_extend ((size : Int) - 1) (by omega) rest1
      obtain ⟨ha0, ha, hb0, hb, _⟩ := drawPair_ok (h2 [])
      obtain ⟨swapped, hsw⟩ := swapAt_of_lt result a b ha0 (by omega) hb0 (by omega)
      have hswlen : swapped.length = size := by
        rw [List.Perm.length_eq (swapAt_perm hsw)]
        exact hlen
      obtain ⟨more, out, hout⟩ := ih rest2 swapped hswlen
      refine ⟨e1 ++ (e2 ++ more), out, ?_⟩
      have h1m := h1 (e2 ++ more)
      have h2m := h2 more
      rw [List.append_assoc] at h2m
      unfold mutationLoop
      rw [← List.append_assoc, h1m]
      simp only [hdie, if_true, h2m, hsw]
      exact hout
    · obtain ⟨more, out, hout⟩ := ih rest1 result hlen
      refine ⟨e1 ++ more, out, ?_⟩
      have h1m := h1 more
      unfold mutationLoop
      rw [← List.append_assoc, h1m]
      simp only [hdie, if_false]
      exact hout

/-- C7: for every tour `t` of length at least 2 and every list of draws, `mutation(t)`
finishes once the draws are extended suitably, and whenever it returns, the result has the
length of `t` and is a rearrangement of `t`; hence it is a permutation of `0, ..., n - 1`
exactly when `t` is. -/
theorem mutation_rearranges (cfg : Config) (t : Tour) (draws : List Nat) (h2 : 2 ≤ t.length) :
    (∃ more out, mutation cfg t (draws ++ more) = .ok out) ∧
      ∀ res rest, mutation cfg t draws = .ok (res, rest) →
        res.length = t.length ∧ res.Perm t ∧ ∀ n, (ValidTour n res ↔ ValidTour n t) := by
  refine ⟨mutationLoop_extend cfg t.length h2 cfg.MUTATION_SIZE draws t rfl, ?_⟩
  intro res rest h
  have hperm : res.Perm t := mutationLoop_perm cfg t.length _ _ _ _ _ h
  refine ⟨List.Perm.length_eq hperm, hperm, fun n => ?_⟩
  unfold ValidTour
  exact ⟨fun hv => hperm.symm.trans hv, fun hv => hperm.trans hv⟩

/-- Witness of C7: the tour `0 1 2 3` under `demoConfig`, with draws that swap once. -/
theorem mutation_rearranges_witness :
    (∃ more out, mutation demoConfig [0, 1, 2, 3] ([10, 0, 1, 80, 5] ++ more) = .ok out) ∧
      ∀ res rest, mutation demoConfig [0, 1, 2, 3] [10, 0, 1, 80, 5] = .ok (res, rest) →
        res.length = [(0 : Int), 1, 2, 3].length ∧ res.Perm [0, 1, 2, 3] ∧
          ∀ n, (ValidTour n res ↔ ValidTour n [0, 1, 2, 3]) :=
  mutation_rearranges demoConfig [0, 1, 2, 3] [10, 0, 1, 80, 5] (by decide)

/-- The run of the witness of C7 does return, with one swap made. -/
theorem mutation_demo_run :
    mutation demoConfig [0, 1, 2, 3] [10, 0, 1, 80, 5] = .ok ([1, 0, 2, 3], [5]) := by
  decide!

/-! ## Tournament selection -/

theorem vecAt_mem {α : Type} {v : List α} {i : Int} {x : α} (h : vecAt v i = .ok x) : x ∈ v :=
  List.getElem?_mem (vecAt_ok h).2

/-- Every finished run of the tournament loop has appended `count` tours of the population. -/
theorem tournamentLoop_spec (s : TSP) :
    ∀ (count : Nat) (draws : List Nat) (result pool : List Tour) (rest : List Nat),
      tournamentLoop s count draws result = .ok (pool, rest) →
        pool.length = result.length + count ∧
          ∀ t ∈ pool, t ∈ result ∨ t ∈ s.m_population := by
  intro count
  induction count with
  | zero =>
    intro draws result pool rest h
    simp only [tournamentLoop, Except.ok.injEq, Prod.mk.injEq] at h
    rw [← h.1]
    exact ⟨rfl, fun t ht => Or.inl ht⟩
  | succ count ih =>
    intro draws result pool rest h
    unfold tournamentLoop at h
    cases h1 : drawPair ((s.m_population.length : Int) - 1) draws with
    | error e => simp [h1] at h
    | ok q =>
      obtain ⟨a, b, d2⟩ := q
      simp only [h1] at h
      cases ha : vecAt s.m_population a with
      | error e => simp [ha] at h
      | ok ta =>
        cases hb : vecAt s.m_population b with
        | error e => simp [ha, hb] at h
        | ok tb =>
          simp only [ha, hb] at h
          by_cases hfit : getFitness s ta > getFitness s tb
          · rw [if_pos hfit] at h
            obtain ⟨hlen, hmem⟩ := ih _ _ _ _ h
            refine ⟨by rw [hlen]; simp; omega, fun t ht => ?_⟩
            rcases hmem t ht with h3 | h3
            · rcases List.mem_append.1 h3 with h4 | h4
              · exact Or.inl h4
              · rw [List.mem_singleton.1 h4]
                exact Or.inr (vecAt_mem ha)
            · exact Or.inr h3
          · rw [if_neg hfit] at h
            obtain ⟨hlen, hmem⟩ := ih _ _ _ _ h
            refine ⟨by rw [hlen]; simp; omega, fun t ht => ?_⟩
            rcases hmem t ht with h3 | h3
            · rcases List.mem_append.1 h3 with h4 | h4
              · exact Or.inl h4
              · rw [List.mem_singleton.1 h4]
                exact Or.inr (vecAt_mem hb)
            · exact Or.inr h3

/-- On a population of at least two tours the tournament loop finishes once the list of draws
is extended suitably. -/
theorem tournamentLoop_extend (s : TSP) (hN : 2 ≤ s.m_population.length) :
    ∀ (count : Nat) (draws : List Nat) (result : List Tour),
      ∃ more out, tournamentLoop s count (draws ++ more) result = .ok out := by
  intro count
  induction count with
  | zero =>
    intro draws result
    exact ⟨[], _, rfl⟩
  | succ count ih =>
    intro draws result
    obtain ⟨e, a, b, rest, h1⟩ :=
      drawPair_extend ((s.m_population.length : Int) - 1) (by omega) draws
    obtain ⟨ha0, ha, hb0, hb, _⟩ := drawPair_ok (h1 [])
    obtain ⟨ta, hta, _⟩ := vecAt_of_lt s.m_population a ha0 (by omega)
    obtain ⟨tb, htb, _⟩ := vecAt_of_lt s.m_population b hb0 (by omega)
    by_cases hfit : getFitness s ta > getFitness s tb
    · obtain ⟨more, out, hout⟩ := ih rest (result ++ [ta])
      refine ⟨e ++ more, out, ?_⟩
      unfold tournamentLoop
      rw [← List.append_assoc, h1 more]
      simp only [hta, htb, hfit, if_true]
      exact hout
    · obtain ⟨more, out, hout⟩ := ih rest (result ++ [tb])
      refine ⟨e ++ more, out, ?_⟩
      unfold tournamentLoop
      rw [← List.append_assoc, h1 more]
      simp only [hta, htb, hfit, if_false]
      exact hout

/-- C8: for every population of `N >= 2` tours, every positive `SELECTION_PART` and every list
of draws, `tournament()` finishes once the draws are extended suitably, and whenever it
returns, the pool has exactly `N / SELECTION_PART` tours, each of them a tour of the
population. -/
theorem tournament_pool (cfg : Config) (s : TSP) (draws : List Nat)
    (hN : 2 ≤ s.m_population.length) (hsp : 0 < cfg.SELECTION_PART) :
    (∃ more out, tournament cfg s (draws ++ more) = .ok out) ∧
      ∀ pool rest, tournament cfg s draws = .ok (pool, rest) →
        pool.length = s.m_population.length / cfg.SELECTION_PART ∧
          ∀ t ∈ pool, t ∈ s.m_population := by
  have hsp0 : cfg.SELECTION_PART ≠ 0 := by omega
  constructor
  · obtain ⟨more, out, h⟩ := tournamentLoop_extend s hN
      (s.m_population.length / cfg.SELECTION_PART) draws []
    exact ⟨more, out, by unfold tournament; rw [if_neg hsp0]; exact h⟩
  · intro pool rest h
    unfold tournament at h
    rw [if_neg hsp0] at h
    obtain ⟨hlen, hmem⟩ := tournamentLoop_spec s _ _ _ _ _ h
    refine ⟨by simpa using hlen, fun t ht => ?_⟩
    rcases hmem t ht with h1 | h1
    · cases h1
    · exact h1

/-- Witness of C8: the four rotations of `fourCities` under `demoConfig`. -/
theorem tournament_pool_witness :
    (∃ more out, tournament demoConfig fourCities ([0, 1, 5, 5, 5, 2] ++ more) = .ok out) ∧
      ∀ pool rest, tournament demoConfig fourCities [0, 1, 5, 5, 5, 2] = .ok (pool, rest) →
        pool.length = fourCities.m_population.length / demoConfig.SELECTION_PART ∧
          ∀ t ∈ pool, t ∈ fourCities.m_population :=
  tournament_pool demoConfig fourCities [0, 1, 5, 5, 5, 2] (by decide) (by decide)

/-- The run of the witness of C8 does return: two tournaments, one of them after two
redraws. -/
theorem tournament_demo_run :
    tournament demoConfig fourCities [0, 1, 5, 5, 5, 2] =
      .ok ([[1, 2, 3, 0], [2, 3, 0, 1]], []) := by
  decide!

/-! ## Proportional selection with elitism -/

/-- Every finished run of the loop of `proportional` from index `i` on: the pool extends the
earlier `result` by tours taken in order from the remaining population `todo`, it does not
grow past a target size `target` not yet exceeded, and the tours still below `ELITE` are
taken as long as the target allows. -/
theorem proportionalLoop_spec (cfg : Config) (s : TSP) (minFitness maxFitness : ℚ) :
    ∀ (todo : List Tour) (i : Nat) (draws : List Nat) (result pool : List Tour)
      (rest : List Nat),
      proportionalLoop cfg s minFitness maxFitness i todo draws result = .ok (pool, rest) →
        ∃ added, pool = result ++ added ∧ added.Sublist todo ∧
          (result.length ≤ s.m_population.length / cfg.SELECTION_PART →
            pool.length ≤ s.m_population.length / cfg.SELECTION_PART) ∧
          ∀ e, i + e ≤ cfg.ELITE → e ≤ todo.length →
            result.length + e ≤ s.m_population.length / cfg.SELECTION_PART →
            added.take e = todo.take e := by
  intro todo
  induction todo with
  | nil =>
    intro i draws result pool rest h
    simp only [proportionalLoop, Except.ok.injEq, Prod.mk.injEq] at h
    refine ⟨[], by simp [h.1], List.Sublist.refl _, fun hle => by rw [← h.1]; exact hle, ?_⟩
    intro e _ he _
    simp
  | cons t todo ih =>
    intro i draws result pool rest h
    unfold proportionalLoop at h
    by_cases hfull : result.length = s.m_population.length / cfg.SELECTION_PART
    · rw [if_pos hfull] at h
      simp only [Except.ok.injEq, Prod.mk.injEq] at h
      refine ⟨[], by simp [h.1], List.nil_sublist _, fun hle => by rw [← h.1]; exact hle, ?_⟩
      intro e _ _ he
      have : e = 0 := by omega
      subst this
      simp
    · rw [if_neg hfull] at h
      by_cases helite : i < cfg.ELITE
      · rw [if_pos helite] at h
        obtain ⟨added, hpool, hsub, hcap, htake⟩ := ih _ _ _ _ _ h
        refine ⟨t :: added, by simp [hpool], hsub.cons₂ t, ?_, ?_⟩
        · intro hle
          apply hcap
          simp only [List.length_append, List.length_singleton]
          omega
        · intro e he1 he2 he3
          cases e with
          | zero => simp
          | succ e =>
            simp only [List.take_succ_cons, List.cons.injEq, true_and]
            apply htake e (by omega) (by simpa using he2)
            simp only [List.length_append, List.length_singleton]
            omega
      · rw [if_neg helite] at h
        have hzero : ∀ e, i + e ≤ cfg.ELITE → e = 0 := fun e he => by omega
        cases h1 : rand 1 100 draws with
        | error e => simp [h1] at h
        | ok p =>
          obtain ⟨r, d1⟩ := p
          simp only [h1] at h
          by_cases hacc :
              (getFitness s t - minFitness) / (maxFitness - minFitness) > (r : ℚ) / 100
          · rw [if_pos hacc] at h
            obtain ⟨added, hpool, hsub, hcap, _⟩ := ih _ _ _ _ _ h
            refine ⟨t :: added, by simp [hpool], hsub.cons₂ t, ?_, ?_⟩
            · intro hle
              apply hcap
              simp only [List.length_append, List.length_singleton]
              omega
            · intro e he1 _ _
              rw [hzero e he1]
              simp
          · rw [if_neg hacc] at h
            obtain ⟨added, hpool, hsub, hcap, _⟩ := ih _ _ _ _ _ h
            refine ⟨added, hpool, hsub.cons t, hcap, ?_⟩
            intro e he1 _ _
            rw [hzero e he1]
            simp

/-- The loop of `proportional` returns whenever one draw per remaining tour is at hand. -/
theorem proportionalLoop_total (cfg : Config) (s : TSP) (minFitness maxFitness : ℚ) :
    ∀ (todo : List Tour) (i : Nat) (draws : List Nat) (result : List Tour),
      todo.length ≤ draws.length →
        ∃ out, proportionalLoop cfg s minFitness maxFitness i todo draws result = .ok out := by
  intro todo
  induction todo with
  | nil =>
    intro i draws result _
    exact ⟨_, rfl⟩
  | cons t todo ih =>
    intro i draws result hlen
    unfold proportionalLoop
    by_cases hfull : result.length = s.m_population.length / cfg.SELECTION_PART
    · rw [if_pos hfull]
      exact ⟨_, rfl⟩
    · rw [if_neg hfull]
      by_cases helite : i < cfg.ELITE
      · rw [if_pos helite]
        exact ih _ _ _ (by simp only [List.length_cons] at hlen; omega)
      · rw [if_neg helite]
        cases draws with
        | nil => simp at hlen
        | cons r ds =>
          rw [rand_cons 1 100 r ds (by omega)]
          simp only [List.length_cons] at hlen
          by_cases hacc :
              (getFitness s t - minFitness) / (maxFitness - minFitness) >
                (randVal 1 100 r : ℚ) / 100
          · simp only [hacc, if_true]
            exact ih _ _ _ (by omega)
          · simp only [hacc, if_false]
            exact ih _ _ _ (by omega)

theorem proportional_eq_loop (cfg : Config) (s : TSP) (draws : List Nat)
    (hne : s.m_population ≠ []) (hsp : 0 < cfg.SELECTION_PART) :
    ∃ minFitness maxFitness, proportional cfg s draws =
      proportionalLoop cfg s minFitness maxFitness 0 s.m_population draws [] := by
  unfold proportional
  cases hpop : s.m_population with
  | nil => exact absurd hpop hne
  | cons t ts =>
    have hlast : (t :: ts).getLast? = some ((t :: ts).getLast (by simp)) :=
      List.getLast?_eq_getLast _ _
    rw [hlast]
    simp only [List.head?_cons]
    rw [if_neg (by omega)]
    exact ⟨_, _, rfl⟩

theorem proportional_nonempty {cfg : Config} {s : TSP} {draws : List Nat}
    {out : List Tour × List Nat} (h : proportional cfg s draws = .ok out) :
    s.m_population ≠ [] ∧ 0 < cfg.SELECTION_PART := by
  unfold proportional at h
  cases hpop : s.m_population with
  | nil => simp [hpop] at h
  | cons t ts =>
    refine ⟨by simp, ?_⟩
    by_contra hsp
    have hlast : (t :: ts).getLast? = some ((t :: ts).getLast (by simp)) :=
      List.getLast?_eq_getLast _ _
    rw [hpop, hlast] at h
    simp only [List.head?_cons] at h
    rw [if_pos (by omega)] at h
    simp at h

/-- C9 as it stands fails: on the ranked population `rankedOneWay` (four tours, target pool
size `4 / 2 = 2`, one elite tour) with every die showing `1.0`, `proportional()` returns a
pool of one tour. -/
theorem proportional_underfills :
    SortedByFitness rankedOneWay ∧
      proportional demoConfig rankedOneWay [99, 99, 99] = .ok ([[0, 1, 2]], []) ∧
      [[(0 : Int), 1, 2]].length ≠
        rankedOneWay.m_population.length / demoConfig.SELECTION_PART := by
  decide!

/-- C9, amended: for every population sorted by descending fitness and every list of draws,
`proportional()` returns as soon as the population is non-empty, `SELECTION_PART` is positive
and one draw per tour is at hand, and the pool it returns has at most `N / SELECTION_PART`
tours. -/
theorem proportional_pool_size (cfg : Config) (s : TSP) (draws : List Nat)
    (hsorted : SortedByFitness s) :
    (s.m_population ≠ [] → 0 < cfg.SELECTION_PART → s.m_population.length ≤ draws.length →
        ∃ out, proportional cfg s draws = .ok out) ∧
      ∀ pool rest, proportional cfg s draws = .ok (pool, rest) →
        pool.length ≤ s.m_population.length / cfg.SELECTION_PART := by
  constructor
  · intro hne hsp hlen
    obtain ⟨mn, mx, heq⟩ := proportional_eq_loop cfg s draws hne hsp
    rw [heq]
    exact proportionalLoop_total cfg s mn mx _ _ _ _ hlen
  · intro pool rest h
    obtain ⟨hne, hsp⟩ := proportional_nonempty h
    obtain ⟨mn, mx, heq⟩ := proportional_eq_loop cfg s draws hne hsp
    rw [heq] at h
    obtain ⟨_, _, _, hcap, _⟩ := proportionalLoop_spec cfg s mn mx _ _ _ _ _ _ h
    exact hcap (Nat.zero_le _)

/-- Witness of C9, amended: the ranked population `rankedOneWay` with every die at `1.0`. -/
theorem proportional_pool_size_witness :
    (rankedOneWay.m_population ≠ [] → 0 < demoConfig.SELECTION_PART →
        rankedOneWay.m_population.length ≤ [99, 99, 99, 99].length →
        ∃ out, proportional demoConfig rankedOneWay [99, 99, 99, 99] = .ok out) ∧
      ∀ pool rest, proportional demoConfig rankedOneWay [99, 99, 99, 99] = .ok (pool, rest) →
        pool.length ≤ rankedOneWay.m_population.length / demoConfig.SELECTION_PART :=
  proportional_pool_size demoConfig rankedOneWay [99, 99, 99, 99] (by decide!)

/-- C10 as it stands fails: with `ELITE = 3`, `SELECTION_PART = 2` and the four ranked tours
of `rankedOneWay`, the pool is full after two elite tours; the third elite tour is not
copied. -/
theorem proportional_elite_cut :
    SortedByFitness rankedOneWay ∧ eliteConfig.ELITE ≤ rankedOneWay.m_population.length ∧
      proportional eliteConfig rankedOneWay [] = .ok ([[0, 1, 2], [1, 2, 0]], []) ∧
      [[(0 : Int), 1, 2], [1, 2, 0]].take eliteConfig.ELITE ≠
        rankedOneWay.m_population.take eliteConfig.ELITE := by
  decide!

/-- C10, amended: for every sorted population of `N >= ELITE` tours and every list of draws,
the pool returned by `proportional()` begins with the top `min(ELITE, N / SELECTION_PART)`
tours of the population, in rank order. -/
theorem proportional_elite_first (cfg : Config) (s : TSP) (draws : List Nat)
    (pool : List Tour) (rest : List Nat) (hsorted : SortedByFitness s)
    (hN : cfg.ELITE ≤ s.m_population.length)
    (h : proportional cfg s draws = .ok (pool, rest)) :
    pool.take (min cfg.ELITE (s.m_population.length / cfg.SELECTION_PART)) =
        s.m_population.take (min cfg.ELITE (s.m_population.length / cfg.SELECTION_PART)) ∧
      min cfg.ELITE (s.m_population.length / cfg.SELECTION_PART) ≤ pool.length := by
  obtain ⟨hne, hsp⟩ := proportional_nonempty h
  obtain ⟨mn, mx, heq⟩ := proportional_eq_loop cfg s draws hne hsp
  rw [heq] at h
  obtain ⟨added, hpool, _, _, htake⟩ := proportionalLoop_spec cfg s mn mx _ _ _ _ _ _ h
  have hmin1 := Nat.min_le_left cfg.ELITE (s.m_population.length / cfg.SELECTION_PART)
  have hmin2 := Nat.min_le_right cfg.ELITE (s.m_population.length / cfg.SELECTION_PART)
  have ht := htake (min cfg.ELITE (s.m_population.length / cfg.SELECTION_PART))
    (by omega) (by omega) (by simp only [List.length_nil]; omega)
  rw [List.nil_append] at hpool
  rw [hpool]
  refine ⟨ht, ?_⟩
  have hlen := congrArg List.length ht
  simp only [List.length_take] at hlen
  omega

/-- Witness of C10, amended: under `eliteConfig` the pool of `rankedOneWay` begins with the
top `min(3, 2) = 2` tours. -/
theorem proportional_elite_first_witness :
    ([[(0 : Int), 1, 2], [1, 2, 0]] : List Tour).take
        (min eliteConfig.ELITE (rankedOneWay.m_population.length / eliteConfig.SELECTION_PART)) =
        rankedOneWay.m_population.take
          (min eliteConfig.ELITE
            (rankedOneWay.m_population.length / eliteConfig.SELECTION_PART)) ∧
      min eliteConfig.ELITE (rankedOneWay.m_population.length / eliteConfig.SELECTION_PART) ≤
        ([[(0 : Int), 1, 2], [1, 2, 0]] : List Tour).length :=
  proportional_elite_first eliteConfig rankedOneWay [] [[0, 1, 2], [1, 2, 0]] []
    (by decide!) (by decide) (by decide!)

/-! ## The generational loop -/

theorem getLenght_congr (s s2 : TSP) (h1 : s2.m_size = s.m_size)
    (h2 : s2.m_matrix = s.m_matrix) (t : Tour) : getLenght s2 t = getLenght s t := by
  unfold getLenght
  rw [h1, h2]

theorem getLenght_le_total (s : TSP) (hnn : NonNegMatrix s.m_matrix) {t : Tour}
    (ht : t ∈ s.m_population) : getLenght s t ≤ totalLenght s := by
  rw [totalLenght_eq_sum]
  apply List.single_le_sum
  · intro x hx
    obtain ⟨u, _, rfl⟩ := List.mem_map.1 hx
    exact getLenght_nonneg s hnn u
  · exact List.mem_map.2 ⟨t, ht, rfl⟩

/-- With non-negative distances, a tour of the population that does not rank below another
one is not longer than it (also when the total length is zero). -/
theorem length_le_of_fitness_le (s : TSP) (hnn : NonNegMatrix s.m_matrix) {a b : Tour}
    (ha : a ∈ s.m_population) (h : getFitness s b ≤ getFitness s a) :
    getLenght s a ≤ getLenght s b := by
  rcases (totalLenght_nonneg s hnn).lt_or_eq with hpos | hzero
  · exact (getFitness_le_iff s hpos a b).1 h
  · have h1 := getLenght_le_total s hnn ha
    rw [← hzero] at h1
    exact le_trans h1 (getLenght_nonneg s hnn b)

theorem sortAndBest_spec {srt : StdSort} {s s2 : TSP} (h : sortAndBest srt s = .ok s2) :
    s2.m_size = s.m_size ∧ s2.m_matrix = s.m_matrix ∧ s2.m_population.Perm s.m_population ∧
      s2.m_population.Pairwise (fun a b => getFitness s b ≤ getFitness s a) ∧
      ∃ best rest, s2.m_population = best :: rest ∧ s2.m_path = best ∧
        s2.m_record = getLenght s best := by
  unfold sortAndBest at h
  have hperm := srt.perm (getFitness s) s.m_population
  have hsorted := srt.sorted (getFitness s) s.m_population
  cases hrun : srt.run (greaterBy (getFitness s)) s.m_population with
  | nil => simp [hrun] at h
  | cons best rest =>
    simp only [hrun, Except.ok.injEq] at h
    rw [hrun] at hperm hsorted
    subst h
    exact ⟨rfl, rfl, hperm, hsorted, best, rest, rfl, rfl, rfl⟩

/-- After `sortAndBest` the record is not larger than the length of any tour of the
population. -/
theorem sortAndBest_record_le {srt : StdSort} {s s2 : TSP} (hnn : NonNegMatrix s.m_matrix)
    (h : sortAndBest srt s = .ok s2) :
    ∀ t ∈ s.m_population, s2.m_record ≤ getLenght s t := by
  obtain ⟨_, _, hperm, hsorted, best, rest, hpop, _, hrec⟩ := sortAndBest_spec h
  intro t ht
  rw [hrec]
  rw [hpop] at hperm hsorted
  have hbest : best ∈ s.m_population := hperm.mem_iff.1 (List.mem_cons_self _ _)
  rcases List.mem_cons.1 (hperm.mem_iff.2 ht) with rfl | htr
  · exact le_refl _
  · exact length_le_of_fitness_le s hnn hbest ((List.pairwise_cons.1 hsorted).1 t htr)

theorem sortAndBest_recordInPopulation {srt : StdSort} {s s2 : TSP}
    (h : sortAndBest srt s = .ok s2) : RecordInPopulation s2 := by
  obtain ⟨h1, h2, _, _, best, rest, hpop, _, hrec⟩ := sortAndBest_spec h
  right
  exact ⟨best, by rw [hpop]; exact List.mem_cons_self _ _, by
    rw [hrec, getLenght_congr s s2 h1 h2]⟩

/-- The loop of `crossover` only appends to the population. -/
theorem crossoverLoop_spec (cfg : Config) (fuel k : Nat) :
    ∀ (pool : List Tour) (draws : List Nat) (pop pop2 : List Tour) (rest : List Nat),
      crossoverLoop cfg fuel k pool draws pop = .ok (pop2, rest) →
        ∃ children, pop2 = pop ++ children := by
  intro pool
  induction pool with
  | nil =>
    intro draws pop pop2 rest h
    simp only [crossoverLoop, Except.ok.injEq, Prod.mk.injEq] at h
    exact ⟨[], by simp [h.1]⟩
  | cons a pool ih =>
    intro draws pop pop2 rest h
    cases pool with
    | nil =>
      simp only [crossoverLoop, Except.ok.injEq, Prod.mk.injEq] at h
      exact ⟨[], by simp [h.1]⟩
    | cons b pool =>
      unfold crossoverLoop at h
      cases h1 : PMX fuel a b k with
      | error e => simp [h1] at h
      | ok c1 =>
        simp only [h1] at h
        cases h2 : mutation cfg c1 draws with
        | error e => simp [h2] at h
        | ok q1 =>
          obtain ⟨m1, d1⟩ := q1
          simp only [h2] at h
          cases h3 : PMX fuel b a k with
          | error e => simp [h3] at h
          | ok c2 =>
            simp only [h3] at h
            cases h4 : mutation cfg c2 d1 with
            | error e => simp [h4] at h
            | ok q2 =>
              obtain ⟨m2, d2⟩ := q2
              simp only [h4] at h
              obtain ⟨children, hch⟩ := ih _ _ _ _ h
              exact ⟨[m1, m2] ++ children, by rw [hch, List.append_assoc]⟩

theorem crossover_spec {cfg : Config} {fuel : Nat} {s s1 : TSP} {pool : List Tour}
    {draws rest : List Nat} (h : crossover cfg fuel s pool draws = .ok (s1, rest)) :
    pool ≠ [] ∧ s1.m_size = s.m_size ∧ s1.m_matrix = s.m_matrix ∧
      ∃ children, s1.m_population = s.m_population ++ children := by
  unfold crossover at h
  cases pool with
  | nil => simp at h
  | cons p0 pool =>
    simp only at h
    cases h1 : rand 1 ((p0.length : Int) - 2) draws with
    | error e => simp [h1] at h
    | ok q =>
      obtain ⟨k, d1⟩ := q
      simp only [h1] at h
      cases h2 : crossoverLoop cfg fuel k.toNat (p0 :: pool) d1 s.m_population with
      | error e => simp [h2] at h
      | ok q2 =>
        obtain ⟨pop, d2⟩ := q2
        simp only [h2, Except.ok.injEq, Prod.mk.injEq] at h
        obtain ⟨children, hch⟩ := crossoverLoop_spec cfg fuel _ _ _ _ _ _ h2
        rw [← h.1]
        exact ⟨by simp, rfl, rfl, children, hch⟩

/-- A selection made on an empty population is empty, if it is made at all. -/
theorem selection_of_empty {cross : CROSSOVER_SELECTION} {cfg : Config} {s : TSP}
    {draws rest : List Nat} {pool : List Tour} (hpop : s.m_population = [])
    (h : selectionForCrossover cross cfg s draws = .ok (pool, rest)) : pool = [] := by
  cases cross with
  | TOURNAMENT =>
    simp only [selectionForCrossover, tournament] at h
    by_cases hsp : cfg.SELECTION_PART = 0
    · simp [hsp] at h
    · rw [if_neg hsp, hpop] at h
      simp only [List.length_nil, Nat.zero_div, tournamentLoop, Except.ok.injEq,
        Prod.mk.injEq] at h
      exact h.1.symm
  | PROPORTIONAL =>
    simp [selectionForCrossover, proportional, hpop] at h

/-- The parts of a finished generation: a non-empty pool, the children appended to the
population, the enlarged population sorted, the sorted population truncated. -/
theorem generation_parts {srt : StdSort} {cfg : Config} {fuel : Nat}
    {cross : CROSSOVER_SELECTION} {s s3 : TSP} {draws rest : List Nat}
    (h : generation srt cfg fuel cross s draws = .ok (s3, rest)) :
    ∃ (pool : List Tour) (d1 : List Nat) (s1 s2 : TSP),
      selectionForCrossover cross cfg s draws = .ok (pool, d1) ∧
      crossover cfg fuel s pool d1 = .ok (s1, rest) ∧
      sortAndBest srt s1 = .ok s2 ∧ s3 = truncate s2 := by
  unfold generation at h
  cases h1 : selectionForCrossover cross cfg s draws with
  | error e => simp [h1] at h
  | ok q =>
    obtain ⟨pool, d1⟩ := q
    simp only [h1] at h
    cases h2 : crossover cfg fuel s pool d1 with
    | error e => simp [h2] at h
    | ok q2 =>
      obtain ⟨s1, d2⟩ := q2
      simp only [h2] at h
      cases h3 : sortAndBest srt s1 with
      | error e => simp [h3] at h
      | ok s2 =>
        simp only [h3, Except.ok.injEq, Prod.mk.injEq] at h
        exact ⟨pool, d1, s1, s2, rfl, by rw [← h.2]; exact h2, h3, h.1.symm⟩

/-- One generation does not raise the record: the new record is at most the length of every
tour the population held before. -/
theorem generation_record {srt : StdSort} {cfg : Config} {fuel : Nat}
    {cross : CROSSOVER_SELECTION} {s s3 : TSP} {draws rest : List Nat}
    (hnn : NonNegMatrix s.m_matrix) (hinv : RecordInPopulation s)
    (h : generation srt cfg fuel cross s draws = .ok (s3, rest)) :
    s3.m_record ≤ s.m_record ∧ RecordInPopulation s3 ∧ s3.m_size = s.m_size ∧
      s3.m_matrix = s.m_matrix := by
  obtain ⟨pool, d1, s1, s2, hsel, hcross, hsort, htrunc⟩ := generation_parts h
  obtain ⟨hpool, hsize1, hmat1, children, hpop1⟩ := crossover_spec hcross
  obtain ⟨hsize2, hmat2, _, _, best, tail, hpop2, _, hrec2⟩ := sortAndBest_spec hsort
  have hne : s.m_population ≠ [] := fun hempty => hpool (selection_of_empty hempty hsel)
  have hle := sortAndBest_record_le (by rw [hmat1]; exact hnn) hsort
  subst htrunc
  refine ⟨?_, ?_, by simp [truncate, hsize2, hsize1], by simp [truncate, hmat2, hmat1]⟩
  · rcases hinv with hempty | ⟨t, ht, hrec⟩
    · exact absurd hempty hne
    · have := hle t (by rw [hpop1]; exact List.mem_append_left _ ht)
      rw [getLenght_congr s s1 hsize1 hmat1] at this
      rw [hrec]
      exact this
  · unfold RecordInPopulation
    by_cases hsz : s2.m_size = 0
    · left
      show s2.m_population.take s2.m_size = []
      rw [hsz, List.take_zero]
    · right
      obtain ⟨n, hn⟩ := Nat.exists_eq_succ_of_ne_zero hsz
      refine ⟨best, ?_, ?_⟩
      · show best ∈ s2.m_population.take s2.m_size
        rw [hpop2, hn]
        simp
      · show s2.m_record = getLenght (truncate s2) best
        rw [hrec2]
        exact (getLenght_congr s1 (truncate s2) hsize2 hmat2 best).symm

theorem GALoop_record {srt : StdSort} {cfg : Config} {fuel : Nat}
    {cross : CROSSOVER_SELECTION} :
    ∀ (g : Nat) (s sg : TSP) (draws rest : List Nat), NonNegMatrix s.m_matrix →
      RecordInPopulation s → GALoop srt cfg fuel cross g s draws = .ok (sg, rest) →
        sg.m_record ≤ s.m_record ∧ RecordInPopulation sg ∧ sg.m_size = s.m_size ∧
          sg.m_matrix = s.m_matrix := by
  intro g
  induction g with
  | zero =>
    intro s sg draws rest _ hinv h
    simp only [GALoop, Except.ok.injEq, Prod.mk.injEq] at h
    rw [← h.1]
    exact ⟨le_refl _, hinv, rfl, rfl⟩
  | succ g ih =>
    intro s sg draws rest hnn hinv h
    unfold GALoop at h
    cases h1 : generation srt cfg fuel cross s draws with
    | error e => simp [h1] at h
    | ok q =>
      obtain ⟨s1, d1⟩ := q
      simp only [h1] at h
      obtain ⟨hrec, hinv1, hsize, hmat⟩ := generation_record hnn hinv h1
      obtain ⟨hrec2, hinv2, hsize2, hmat2⟩ := ih s1 sg d1 rest (by rw [hmat]; exact hnn) hinv1 h
      exact ⟨le_trans hrec2 hrec, hinv2, by rw [hsize2, hsize], by rw [hmat2, hmat]⟩

/-- Running one more generation is running the loop and then one generation. -/
theorem GALoop_succ (srt : StdSort) (cfg : Config) (fuel : Nat) (cross : CROSSOVER_SELECTION) :
    ∀ (g : Nat) (s : TSP) (draws : List Nat),
      GALoop srt cfg fuel cross (g + 1) s draws =
        match GALoop srt cfg fuel cross g s draws with
        | .error e => .error e
        | .ok (s1, d1) => generation srt cfg fuel cross s1 d1 := by
  intro g
  induction g with
  | zero =>
    intro s draws
    simp only [GALoop]
    cases generation srt cfg fuel cross s draws with
    | error e => rfl
    | ok q => rfl
  | succ g ih =>
    intro s draws
    rw [GALoop]
    cases h1 : generation srt cfg fuel cross s draws with
    | error e => simp only [GALoop, h1]
    | ok q =>
      obtain ⟨s1, d1⟩ := q
      simp only
      rw [ih s1 d1]
      conv_rhs => rw [GALoop]
      simp only [h1]

/-- C2: in a run of `solve` on an instance with non-negative distances, positive total
population length and an initial population of valid tours, with either selection strategy
and any draws for which the run gets that far, the record after generation `g + 1` is at most
the record after generation `g`, and the record after any number of generations, in
particular the one `solve` ends with, is at most the length of every tour of the initial
population. -/
theorem record_monotone (srt : StdSort) (cfg : Config) (fuel : Nat)
    (cross : CROSSOVER_SELECTION) (s : TSP) (draws : List Nat) (g : Nat) (sg sg1 : TSP)
    (rg rg1 : List Nat) (hnn : NonNegMatrix s.m_matrix) (hpos : 0 < totalLenght s)
    (hvalid : ∀ t ∈ s.m_population, ValidTour s.m_size t)
    (hg : afterGenerations srt cfg fuel cross g s draws = .ok (sg, rg))
    (hg1 : afterGenerations srt cfg fuel cross (g + 1) s draws = .ok (sg1, rg1)) :
    sg1.m_record ≤ sg.m_record ∧ (∀ t ∈ s.m_population, sg.m_record ≤ getLenght s t) ∧
      ∀ final rest, solve srt cfg fuel cross s draws = .ok (final, rest) →
        ∀ t ∈ s.m_population, final.m_record ≤ getLenght s t := by
  unfold afterGenerations at hg hg1
  cases h0 : sortAndBest srt s with
  | error e => simp [h0] at hg
  | ok s0 =>
    simp only [h0] at hg hg1
    obtain ⟨hsize0, hmat0, _, _, _⟩ := sortAndBest_spec h0
    have hnn0 : NonNegMatrix s0.m_matrix := by rw [hmat0]; exact hnn
    have hinv0 := sortAndBest_recordInPopulation h0
    have hinit := sortAndBest_record_le hnn h0
    obtain ⟨hrec, hinv, hsize, hmat⟩ := GALoop_record g s0 sg draws rg hnn0 hinv0 hg
    rw [GALoop_succ, hg] at hg1
    simp only at hg1
    obtain ⟨hrec1, _, _, _⟩ := generation_record (by rw [hmat]; exact hnn0) hinv hg1
    refine ⟨hrec1, fun t ht => le_trans hrec (hinit t ht), ?_⟩
    intro final rest hfinal
    simp only [solve, h0, GA] at hfinal
    obtain ⟨hrecf, _, _, _⟩ := GALoop_record _ s0 final draws rest hnn0 hinv0 hfinal
    exact fun t ht => le_trans hrecf (hinit t ht)

/-- Witness of C2: the end-to-end scenario, four cyclic rotations of `0 1 2 3` on the 4-city
symmetric matrix, tournament selection, the states after one and after two generations. -/
theorem record_monotone_witness :
    fourCitiesRanked.m_record ≤ fourCitiesRanked.m_record ∧
      (∀ t ∈ fourCities.m_population, fourCitiesRanked.m_record ≤ getLenght fourCities t) ∧
      ∀ final rest,
        solve insertionStdSort demoConfig 4 .TOURNAMENT fourCities twoGenerationsDraws =
          .ok (final, rest) →
        ∀ t ∈ fourCities.m_population, final.m_record ≤ getLenght fourCities t :=
  record_monotone insertionStdSort demoConfig 4 .TOURNAMENT fourCities twoGenerationsDraws 1
    fourCitiesRanked fourCitiesRanked [1, 0, 3, 3, 2, 1, 99, 99, 99, 0, 2, 0] []
    (by simp [NonNegMatrix, fourCities]) (by decide!) (by decide) (by decide!) (by decide!)

/-- The run of `solve` in the witness of C2 does return, with the record 14 of the initial
population. -/
theorem solve_demo_run :
    solve insertionStdSort demoConfig 4 .TOURNAMENT fourCities twoGenerationsDraws =
      .ok (fourCitiesRanked, []) := by
  decide!

/-- After a generation the population holds at most `m_size` tours, whatever its size was
before. -/
theorem generation_population_length {srt : StdSort} {cfg : Config} {fuel : Nat}
    {cross : CROSSOVER_SELECTION} {s s3 : TSP} {draws rest : List Nat}
    (h : generation srt cfg fuel cross s draws = .ok (s3, rest)) :
    s3.m_population.length ≤ s.m_size := by
  obtain ⟨pool, d1, s1, s2, _, hcross, hsort, htrunc⟩ := generation_parts h
  obtain ⟨_, hsize1, _, _⟩ := crossover_spec hcross
  obtain ⟨hsize2, _, _, _, _⟩ := sortAndBest_spec hsort
  subst htrunc
  simp only [truncate, List.length_take]
  rw [hsize2, hsize1]
  exact Nat.min_le_left _ _

/-- C3, the code at the failing input: a generation on the three-city instance `rankedOneWay`,
whose population has `N = 4` tours, leaves a population of `m_size = 3` tours. -/
theorem generation_truncates_to_m_size :
    generation insertionStdSort demoConfig 3 .TOURNAMENT rankedOneWay
        [0, 2, 1, 3, 0, 99, 99, 99, 99] =
      .ok ({ rankedOneWay with
              m_population := [[0, 1, 2], [1, 2, 0], [0, 1, 2]]
              m_path := [0, 1, 2]
              m_record := 3 }, []) ∧
      rankedOneWay.m_population.length = 4 ∧
      ([[0, 1, 2], [1, 2, 0], [0, 1, 2]] : List Tour).length = 3 := by
  decide!

/-! ## The shape of the child of PMX -/

theorem ext_node {l1 l2 : Tour} (hlen : l1.length = l2.length)
    (h : ∀ j, j < l1.length → node l1 j = node l2 j) : l1 = l2 := by
  apply List.ext_getElem hlen
  intro j h1 h2
  rw [← node_eq_getElem l1 j h1, ← node_eq_getElem l2 j h2]
  exact h j h1

/-- C16: for every two valid tours `a`, `b` over `n` nodes and every `k < n`, the child
`c = PMX(a, b, k)` keeps the prefix of `a` (`c[i] = a[i]` for every `i <= k`), and every
position `i > k` at which no walk of a relocated value ends holds `b[i]`. -/
theorem PMX_keeps_prefix (n k fuel : Nat) (a b : Tour) (ha : ValidTour n a)
    (hb : ValidTour n b) (hk : k < n) (hfuel : k + 1 ≤ fuel) :
    ∃ c, PMX fuel a b k = .ok c ∧ (∀ i, i ≤ k → node c i = node a i) ∧
      ∀ i, k < i → i < n →
        (∀ i2, Relocated a b k i2 → walk a b k fuel i2 ≠ .ok i) → node c i = node b i := by
  have H : Parents n k a b := ⟨ha, hb, hk⟩
  obtain ⟨c, hc, _, hpre, hpost⟩ := H.PMX_shape hfuel
  refine ⟨c, hc, hpre, ?_⟩
  intro i hki hin hno
  rcases hpost i hki hin with ⟨hval, _⟩ | ⟨i2, hrel, hw, _⟩
  · exact hval
  · exact absurd hw (hno i2 hrel)

/-- Witness of C16: the parents `0..7` and `3 7 5 1 6 0 2 4` cut at `k = 3`. -/
theorem PMX_keeps_prefix_witness :
    ∃ c, PMX 4 [0, 1, 2, 3, 4, 5, 6, 7] [3, 7, 5, 1, 6, 0, 2, 4] 3 = .ok c ∧
      (∀ i, i ≤ 3 → node c i = node [0, 1, 2, 3, 4, 5, 6, 7] i) ∧
      ∀ i, 3 < i → i < 8 →
        (∀ i2, Relocated [0, 1, 2, 3, 4, 5, 6, 7] [3, 7, 5, 1, 6, 0, 2, 4] 3 i2 →
          walk [0, 1, 2, 3, 4, 5, 6, 7] [3, 7, 5, 1, 6, 0, 2, 4] 3 4 i2 ≠ .ok i) →
        node c i = node [3, 7, 5, 1, 6, 0, 2, 4] i :=
  PMX_keeps_prefix 8 3 4 [0, 1, 2, 3, 4, 5, 6, 7] [3, 7, 5, 1, 6, 0, 2, 4] (by decide)
    (by decide) (by decide) (by decide)

/-- The child of the witness of C16: the prefix `0 1 2 3`, the relocated values `7` and `5`
at the slots where `p2` holds `1` and `0`, and `6`, `4` of `p2` in place. -/
theorem PMX_demo_run :
    PMX 4 [0, 1, 2, 3, 4, 5, 6, 7] [3, 7, 5, 1, 6, 0, 2, 4] 3 =
      .ok [0, 1, 2, 3, 6, 7, 5, 4] := by
  decide

/-- Crossing a tour with itself relocates nothing. -/
theorem relocate_self (fuel k : Nat) (a : Tour) :
    ∀ (todo : List Nat) (res : Tour), (∀ i ∈ todo, i < a.length ∧ node a i ∈ res) →
      relocate fuel a a k todo res = .ok res := by
  intro todo
  induction todo with
  | nil => intro res _; rfl
  | cons i todo ih =>
    intro res h
    obtain ⟨hi, hmem⟩ := h i (List.mem_cons_self _ _)
    simp only [relocate, getElem?_eq_node a i hi]
    rw [if_pos hmem]
    exact ih res (fun j hj => h j (List.mem_cons_of_mem _ hj))

/-- C18: for every valid tour `a` over `n` nodes and every `k < n`, `PMX(a, a, k) = a`
(whatever the fuel: no walk is started). -/
theorem PMX_self (n k fuel : Nat) (a : Tour) (ha : ValidTour n a) (hk : k < n) :
    PMX fuel a a k = .ok a := by
  have hlen : a.length = n := ha.length_eq
  have hinit : ∀ j, j < n → node (initChild a k) j = if j ≤ k then node a j else -1 :=
    fun j hj => node_initChild a k j (by rw [hlen]; exact hj)
  have hnonneg : ∀ j, j < n → 0 ≤ node a j := fun j hj =>
    ((ha.mem_iff _).1 (node_mem a j (by rw [hlen]; exact hj))).1
  have hrel : relocate fuel a a k (List.range (k + 1)) (initChild a k) =
      .ok (initChild a k) := by
    apply relocate_self
    intro i hi
    have hik : i ≤ k := Nat.lt_succ_iff.1 (List.mem_range.1 hi)
    have hin : i < n := lt_of_le_of_lt hik hk
    refine ⟨by rw [hlen]; exact hin, ?_⟩
    have := node_mem (initChild a k) i (by rw [initChild_length, hlen]; exact hin)
    rwa [hinit i hin, if_pos hik] at this
  obtain ⟨out, hout, holen, hnode⟩ := fillEmpty_spec a (initChild a k) 0
    (by rw [initChild_length]; omega)
  have heq : out = a := by
    apply ext_node (by rw [holen, initChild_length])
    intro j hj
    rw [holen, initChild_length, hlen] at hj
    rw [hnode j (by rw [initChild_length, hlen]; exact hj), hinit j hj, Nat.zero_add]
    by_cases hjk : j ≤ k
    · rw [if_pos hjk, if_neg]
      have := hnonneg j hj
      omega
    · rw [if_neg hjk, if_pos rfl]
  simp only [PMX, hrel, hout, heq]

/-- Witness of C18: the tour `3 7 5 1 6 0 2 4` crossed with itself at `k = 3`, with no fuel. -/
theorem PMX_self_witness :
    PMX 0 [3, 7, 5, 1, 6, 0, 2, 4] [3, 7, 5, 1, 6, 0, 2, 4] 3 = .ok [3, 7, 5, 1, 6, 0, 2, 4] :=
  PMX_self 8 3 0 [3, 7, 5, 1, 6, 0, 2, 4] (by decide) (by decide)

/-! ## Where a relocated value is written -/

/-- More fuel does not change the outcome of a walk that has ended. -/
theorem walk_mono (p1 p2 : Tour) (k : Nat) :
    ∀ (fuel fuel2 x r : Nat), fuel ≤ fuel2 → walk p1 p2 k fuel x = .ok r →
      walk p1 p2 k fuel2 x = .ok r := by
  intro fuel
  induction fuel with
  | zero =>
    intro fuel2 x r _ h
    by_cases hx : x ≤ k
    · simp [walk, hx] at h
    · rw [walk_of_gt p1 p2 k 0 x (Nat.lt_of_not_le hx)] at h
      rw [walk_of_gt p1 p2 k fuel2 x (Nat.lt_of_not_le hx)]
      exact h
  | succ fuel ih =>
    intro fuel2 x r hle h
    by_cases hx : x ≤ k
    · obtain ⟨f2, rfl⟩ : ∃ f2, fuel2 = f2 + 1 := ⟨fuel2 - 1, by omega⟩
      simp only [walk, if_pos hx] at h ⊢
      cases hv : p1[x]? with
      | none => simp [hv] at h
      | some v =>
        simp only [hv] at h ⊢
        exact ih f2 _ r (by omega) h
    · rw [walk_of_gt p1 p2 k _ x (Nat.lt_of_not_le hx)] at h
      rw [walk_of_gt p1 p2 k fuel2 x (Nat.lt_of_not_le hx)]
      exact h

/-- One step of the relocation loop on valid parents keeps the invariant. -/
theorem Parents.relocate_step {n k : Nat} {p1 p2 : Tour} (H : Parents n k p1 p2) {fuel : Nat}
    (hfuel : k + 1 ≤ fuel) {i : Nat} {res : Tour} (hik : i ≤ k)
    (hinv : RelocInv fuel n k p1 p2 i res) :
    ∃ res2, RelocInv fuel n k p1 p2 (i + 1) res2 ∧
      ∀ todo, relocate fuel p1 p2 k (i :: todo) res = relocate fuel p1 p2 k todo res2 := by
  have hin : i < n := lt_of_le_of_lt hik H.cut
  have hp2 := getElem?_eq_node p2 i (by rw [H.valid2.length_eq]; exact hin)
  by_cases hmem : node p2 i ∈ res
  · refine ⟨res, ?_, fun todo => by simp only [relocate, hp2]; rw [if_pos hmem]⟩
    have hnot : ¬ Relocated p1 p2 k i := fun h => h.2 ((H.mem_res_iff hinv hik).1 hmem)
    obtain ⟨hlen, hpre, hpost⟩ := hinv
    refine ⟨hlen, hpre, ?_⟩
    intro j hkj hjn
    rcases hpost j hkj hjn with ⟨hneg, hno⟩ | ⟨i2, hi2, hrel, hw, hval⟩
    · left
      refine ⟨hneg, ?_⟩
      intro i2 hi2 hrel
      rcases Nat.lt_succ_iff_lt_or_eq.1 hi2 with h | h
      · exact hno i2 h hrel
      · exact absurd (h ▸ hrel) hnot
    · right
      exact ⟨i2, by omega, hrel, hw, hval⟩
  · have hrel : Relocated p1 p2 k i := ⟨hik, fun h => hmem ((H.mem_res_iff hinv hik).2 h)⟩
    obtain ⟨pos, hw, hkpos, hposn, _⟩ := H.walk_relocated hrel hfuel
    obtain ⟨hlen, hpre, hpost⟩ := hinv
    refine ⟨res.set pos (node p2 i), ?_, fun todo => by
      simp only [relocate, hp2, hw]
      rw [if_neg hmem, if_pos (by rw [hlen]; exact hposn)]⟩
    refine ⟨by simpa using hlen, ?_, ?_⟩
    · intro j hj
      rw [node_set_ne res pos j _ (by omega)]
      exact hpre j hj
    · intro j hkj hjn
      by_cases hjp : j = pos
      · right
        subst hjp
        exact ⟨i, by omega, hrel, hw, node_set_self res j _ (by rw [hlen]; exact hjn)⟩
      · rw [node_set_ne res pos j _ (fun h => hjp h.symm)]
        rcases hpost j hkj hjn with ⟨hneg, hno⟩ | ⟨i2, hi2, hrel2, hw2, hval⟩
        · left
          refine ⟨hneg, ?_⟩
          intro i2 hi2 hrel2
          rcases Nat.lt_succ_iff_lt_or_eq.1 hi2 with h | h
          · exact hno i2 h hrel2
          · subst h
            rw [hw]
            intro heq
            exact hjp (Except.ok.inj heq).symm
        · right
          exact ⟨i2, by omega, hrel2, hw2, hval⟩

/-- The relocation loop run over the indices `i, ..., i + cnt - 1` of the cut. -/
theorem Parents.relocate_upto {n k : Nat} {p1 p2 : Tour} (H : Parents n k p1 p2) {fuel : Nat}
    (hfuel : k + 1 ≤ fuel) :
    ∀ (cnt i : Nat) (res : Tour), i + cnt ≤ k + 1 → RelocInv fuel n k p1 p2 i res →
      ∃ out, relocate fuel p1 p2 k (List.range' i cnt) res = .ok out ∧
        RelocInv fuel n k p1 p2 (i + cnt) out := by
  intro cnt
  induction cnt with
  | zero =>
    intro i res _ hinv
    exact ⟨res, rfl, hinv⟩
  | succ cnt ih =>
    intro i res hi hinv
    obtain ⟨res2, hinv2, hstep⟩ := H.relocate_step hfuel (by omega) hinv
    obtain ⟨out, hout, hinvout⟩ := ih (i + 1) res2 (by omega) hinv2
    refine ⟨out, ?_, ?_⟩
    · rw [List.range'_succ, hstep]
      exact hout
    · have : i + (cnt + 1) = i + 1 + cnt := by omega
      rw [this]
      exact hinvout

/-- C15: for every two valid tours `p1`, `p2` over `n` nodes, every `k < n` and every position
`i <= k` whose value `p2[i]` does not occur in `p1[0..k]`, the mapping-chain walk from `i`
ends after at most `k + 1` jumps at a position `pos` with `k < pos < n`; that position is
still empty (`-1`) in the child when the loop reaches `i`; and no other such position is
walked to `pos`. -/
theorem walk_resolves (n k fuel i : Nat) (p1 p2 : Tour) (h1 : ValidTour n p1)
    (h2 : ValidTour n p2) (hk : k < n) (hi : i ≤ k) (hrel : node p2 i ∉ p1.take (k + 1))
    (hfuel : k + 1 ≤ fuel) :
    ∃ pos, walk p1 p2 k (k + 1) i = .ok pos ∧ walk p1 p2 k fuel i = .ok pos ∧ k < pos ∧
      pos < n ∧
      (∃ res, relocate fuel p1 p2 k (List.range i) (initChild p1 k) = .ok res ∧
        node res pos = -1) ∧
      ∀ i2, i2 ≤ k → node p2 i2 ∉ p1.take (k + 1) → i2 ≠ i →
        walk p1 p2 k fuel i2 ≠ .ok pos := by
  have H : Parents n k p1 p2 := ⟨h1, h2, hk⟩
  have hreli : Relocated p1 p2 k i := ⟨hi, hrel⟩
  obtain ⟨pos, hw, hkpos, hposn, _⟩ := H.walk_relocated hreli (le_refl (k + 1))
  have hwf : walk p1 p2 k fuel i = .ok pos := walk_mono p1 p2 k _ _ _ _ hfuel hw
  refine ⟨pos, hw, hwf, hkpos, hposn, ?_, ?_⟩
  · obtain ⟨res, hres, _, _, hpost⟩ :=
      H.relocate_upto hfuel i 0 (initChild p1 k) (by omega) (H.relocInv_init fuel)
    rw [← List.range_eq_range'] at hres
    refine ⟨res, hres, ?_⟩
    rcases hpost pos hkpos hposn with ⟨hneg, _⟩ | ⟨i2, hi2, hrel2, hw2, _⟩
    · exact hneg
    · have := H.walk_inj hrel2 hreli hw2 hwf
      omega
  · intro i2 hi2 hrel2 hne hw2
    exact hne (H.walk_inj ⟨hi2, hrel2⟩ hreli hw2 hwf)

/-- Witness of C15: with the parents `0..7` and `3 7 5 1 6 0 2 4` cut at `k = 3`, the walk
from `i = 1` (value `7`). -/
theorem walk_resolves_witness :
    ∃ pos, walk [0, 1, 2, 3, 4, 5, 6, 7] [3, 7, 5, 1, 6, 0, 2, 4] 3 (3 + 1) 1 = .ok pos ∧
      walk [0, 1, 2, 3, 4, 5, 6, 7] [3, 7, 5, 1, 6, 0, 2, 4] 3 4 1 = .ok pos ∧ 3 < pos ∧
      pos < 8 ∧
      (∃ res, relocate 4 [0, 1, 2, 3, 4, 5, 6, 7] [3, 7, 5, 1, 6, 0, 2, 4] 3 (List.range 1)
          (initChild [0, 1, 2, 3, 4, 5, 6, 7] 3) = .ok res ∧ node res pos = -1) ∧
      ∀ i2, i2 ≤ 3 → node [3, 7, 5, 1, 6, 0, 2, 4] i2 ∉ [0, 1, 2, 3, 4, 5, 6, 7].take (3 + 1) →
        i2 ≠ 1 → walk [0, 1, 2, 3, 4, 5, 6, 7] [3, 7, 5, 1, 6, 0, 2, 4] 3 4 i2 ≠ .ok pos :=
  walk_resolves 8 3 4 1 [0, 1, 2, 3, 4, 5, 6, 7] [3, 7, 5, 1, 6, 0, 2, 4] (by decide)
    (by decide) (by decide) (by decide) (by decide) (by decide)

/-! ## The walk on arbitrary sequences -/

/-- A walk that stays inside the cut for as many jumps as it has fuel runs out of fuel. -/
theorem walk_error (p1 p2 : Tour) (k : Nat) (hk : k < p1.length) :
    ∀ (fuel x : Nat), (∀ j, j ≤ fuel → (jump p1 p2)^[j] x ≤ k) →
      walk p1 p2 k fuel x = .error .outOfFuel := by
  intro fuel
  induction fuel with
  | zero =>
    intro x h
    have hx : x ≤ k := h 0 (le_refl 0)
    simp [walk, hx]
  | succ fuel ih =>
    intro x h
    have hx : x ≤ k := h 0 (Nat.zero_le _)
    rw [walk_succ p1 p2 k fuel x hx (lt_of_le_of_lt hx hk)]
    apply ih
    intro j hj
    have := h (j + 1) (by omega)
    rwa [Function.iterate_succ_apply] at this

/-- A walk with a cut inside `p1` either ends beyond the cut, at most at `p2.size()` unless it
started beyond the cut, or it has stayed inside the cut for all its jumps. -/
theorem walk_cases (p1 p2 : Tour) (k : Nat) (hk : k < p1.length) :
    ∀ (fuel x : Nat),
      (∃ r, walk p1 p2 k fuel x = .ok r ∧ k < r ∧ (r ≤ p2.length ∨ r = x)) ∨
      (walk p1 p2 k fuel x = .error .outOfFuel ∧
        ∀ j, j ≤ fuel → (jump p1 p2)^[j] x ≤ k) := by
  intro fuel
  induction fuel with
  | zero =>
    intro x
    by_cases hx : x ≤ k
    · right
      refine ⟨by simp [walk, hx], ?_⟩
      intro j hj
      have : j = 0 := by omega
      subst this
      exact hx
    · left
      exact ⟨x, walk_of_gt p1 p2 k 0 x (Nat.lt_of_not_le hx), Nat.lt_of_not_le hx, Or.inr rfl⟩
  | succ fuel ih =>
    intro x
    by_cases hx : x ≤ k
    · rw [walk_succ p1 p2 k fuel x hx (lt_of_le_of_lt hx hk)]
      rcases ih (jump p1 p2 x) with ⟨r, hr, hkr, hle⟩ | ⟨herr, hstay⟩
      · left
        refine ⟨r, hr, hkr, Or.inl ?_⟩
        rcases hle with h | h
        · exact h
        · rw [h]
          exact List.indexOf_le_length
      · right
        refine ⟨herr, ?_⟩
        intro j hj
        cases j with
        | zero => exact hx
        | succ j =>
          rw [Function.iterate_succ_apply]
          exact hstay j (by omega)
    · left
      exact ⟨x, walk_of_gt p1 p2 k _ x (Nat.lt_of_not_le hx), Nat.lt_of_not_le hx, Or.inr rfl⟩

/-- A chain of `k + 1` jumps that never leaves the positions `0, ..., k` has come back to a
position it has visited, and never leaves them. -/
theorem iterate_trapped (f : Nat → Nat) (k x : Nat) (h : ∀ j, j ≤ k + 1 → f^[j] x ≤ k) :
    ∀ j, f^[j] x ≤ k := by
  have hcard : (Finset.range (k + 1)).card < (Finset.range (k + 2)).card := by simp
  obtain ⟨a, ha, b, hb, hab, heq⟩ :=
    Finset.exists_ne_map_eq_of_card_lt_of_maps_to hcard (f := fun j => f^[j] x) (by
      intro j hj
      exact Finset.mem_range.2 (Nat.lt_succ_of_le (h j (by
        have := Finset.mem_range.1 hj
        omega))))
  have ha2 : a ≤ k + 1 := by have := Finset.mem_range.1 ha; omega
  have hb2 : b ≤ k + 1 := by have := Finset.mem_range.1 hb; omega
  have key : ∀ (lo hi2 : Nat), lo < hi2 → hi2 ≤ k + 1 → f^[lo] x = f^[hi2] x →
      ∀ j, f^[j] x ≤ k := by
    intro lo hi2 hlt hhi hsame j
    induction j using Nat.strong_induction_on with
    | _ j ih =>
      by_cases hj : j ≤ k + 1
      · exact h j hj
      · have hsplit : j = (j - hi2) + hi2 := by omega
        have hstep : f^[j] x = f^[(j - hi2) + lo] x := by
          conv_lhs => rw [hsplit]
          rw [Function.iterate_add_apply, ← hsame, ← Function.iterate_add_apply]
        rw [hstep]
        exact ih _ (by omega)
  rcases Nat.lt_or_gt_of_ne hab with hlt | hgt
  · exact key a b hlt hb2 heq
  · exact key b a hgt ha2 heq.symm

/-- C14 as it stands fails: `PMX` has no guard. On `p1 = 1 1 2` (a repeated value),
`p2 = 0 1 2`, `k = 1` the walk never ends, whatever the fuel; on `p1 = 0 3 2` (a value absent
from `p2`), `p2 = 1 0 2`, `k = 1` the walk ends at position `3 = size` and the write there is
out of bounds. -/
theorem PMX_walk_unguarded :
    (∀ fuel, PMX fuel [1, 1, 2] [0, 1, 2] 1 = .error .outOfFuel) ∧
      (∀ fuel, 2 ≤ fuel → walk [0, 3, 2] [1, 0, 2] 1 fuel 0 = .ok 3) ∧
      (∀ fuel, 2 ≤ fuel → PMX fuel [0, 3, 2] [1, 0, 2] 1 = .error .outOfBounds) := by
  have hloop : ∀ fuel, walk [1, 1, 2] [0, 1, 2] 1 fuel 0 = .error .outOfFuel := by
    intro fuel
    apply walk_error _ _ _ (by decide)
    intro j _
    apply iterate_trapped (jump [1, 1, 2] [0, 1, 2]) 1 0
    intro i hi
    interval_cases i <;> decide
  have hout : ∀ fuel, 2 ≤ fuel → walk [0, 3, 2] [1, 0, 2] 1 fuel 0 = .ok 3 :=
    fun fuel hf => walk_mono _ _ _ 2 fuel 0 3 hf (by decide)
  refine ⟨fun fuel => ?_, hout, fun fuel hf => ?_⟩
  · have h0 : List.range (1 + 1) = [0, 1] := by decide
    have h1 : initChild [1, 1, 2] 1 = [1, 1, -1] := by decide
    simp [PMX, h0, h1, relocate, hloop fuel]
  · have h0 : List.range (1 + 1) = [0, 1] := by decide
    have h1 : initChild [0, 3, 2] 1 = [0, 3, -1] := by decide
    simp [PMX, h0, h1, relocate, hout fuel hf]

/-- C14, amended: for every pair of equal-length sequences `p1`, `p2`, every `k < size` and
every start `i <= k`, the walk of `PMX` either ends after at most `k + 1` jumps at a position
`pos` with `k < pos <= size` (the same for every larger fuel; `pos = size` is an
out-of-range write), or it never ends; no failure is reported. -/
theorem walk_stops_or_loops (p1 p2 : Tour) (k i : Nat) (hlen : p1.length = p2.length)
    (hk : k < p1.length) (hi : i ≤ k) :
    (∃ pos, k < pos ∧ pos ≤ p2.length ∧
        ∀ fuel, k + 1 ≤ fuel → walk p1 p2 k fuel i = .ok pos) ∨
      (∀ fuel, walk p1 p2 k fuel i = .error .outOfFuel) := by
  rcases walk_cases p1 p2 k hk (k + 1) i with ⟨r, hr, hkr, hle⟩ | ⟨_, hstay⟩
  · left
    refine ⟨r, hkr, ?_, fun fuel hf => walk_mono p1 p2 k _ _ _ _ hf hr⟩
    rcases hle with h | h
    · exact h
    · omega
  · right
    intro fuel
    apply walk_error p1 p2 k hk
    intro j _
    exact iterate_trapped _ k i hstay j

/-- Witness of C14, amended: the malformed parents `0 3 2` and `1 0 2` cut at `k = 1`, whose
walk from `0` ends at position `3`. -/
theorem walk_stops_or_loops_witness :
    (∃ pos, 1 < pos ∧ pos ≤ [(1 : Int), 0, 2].length ∧
        ∀ fuel, 1 + 1 ≤ fuel → walk [0, 3, 2] [1, 0, 2] 1 fuel 0 = .ok pos) ∨
      (∀ fuel, walk [0, 3, 2] [1, 0, 2] 1 fuel 0 = .error .outOfFuel) :=
  walk_stops_or_loops [0, 3, 2] [1, 0, 2] 1 0 (by decide) (by decide) (by decide)

/-! ## Which tours the selectors take -/

/-- C17 as it stands fails in the arithmetic of the program: on `hugeOneWay` the tours
`0 1 2` and `0 2 1` have the lengths `2^52` and `2^52 + 1`, both exact in binary64, and the
same binary64 fitness `0.75`; for the drawn indices `a = 0`, `b = 1` the test
`getFitness(population[a]) > getFitness(population[b])` is false and the round appends
`population[b]`, the longer tour. In exact arithmetic the fitness of `0 1 2` is the larger. -/
theorem tournament_double_appends_longer :
    vecAt hugeOneWay.m_population 0 = .ok [0, 1, 2] ∧
      vecAt hugeOneWay.m_population 1 = .ok [0, 2, 1] ∧
      getLenghtDouble hugeOneWay [0, 1, 2] = 4503599627370496 ∧
      getLenghtDouble hugeOneWay [0, 2, 1] = 4503599627370497 ∧
      totalLenghtDouble hugeOneWay = 18014398509481984 ∧
      getFitnessDouble hugeOneWay [0, 1, 2] = 3 / 4 ∧
      getFitnessDouble hugeOneWay [0, 2, 1] = 3 / 4 ∧
      tournamentChoiceDouble hugeOneWay 0 1 = .ok [0, 2, 1] ∧
      ¬ getLenghtDouble hugeOneWay [0, 2, 1] ≤ getLenghtDouble hugeOneWay [0, 1, 2] ∧
      getLenght hugeOneWay [0, 1, 2] = getLenghtDouble hugeOneWay [0, 1, 2] ∧
      getLenght hugeOneWay [0, 2, 1] = getLenghtDouble hugeOneWay [0, 2, 1] ∧
      getFitness hugeOneWay [0, 1, 2] > getFitness hugeOneWay [0, 2, 1] := by
  decide!

/-- C17, amended: with lengths and fitness taken in exact arithmetic, non-negative distances
and non-zero total length, for every pair of distinct drawn indices `a`, `b` the round of
`tournament()` returns the pool extended by exactly one tour `w`, which is `population[a]` if
its fitness is strictly larger and `population[b]` otherwise; the fitness of `w` is at least
the fitness of both drawn tours, equivalently its length is at most the length of both. -/
theorem tournament_appends_fitter (s : TSP) (draws d2 : List Nat)
    (result : List Tour) (a b : Int) (hnn : NonNegMatrix s.m_matrix)
    (htot : totalLenght s ≠ 0)
    (h : drawPair ((s.m_population.length : Int) - 1) draws = .ok (a, b, d2)) :
    a ≠ b ∧ ∃ ta tb w, vecAt s.m_population a = .ok ta ∧ vecAt s.m_population b = .ok tb ∧
      w = (if getFitness s ta > getFitness s tb then ta else tb) ∧
      tournamentLoop s 1 draws result = .ok (result ++ [w], d2) ∧
      (∀ count, tournamentLoop s (count + 1) draws result =
        tournamentLoop s count d2 (result ++ [w])) ∧
      getFitness s ta ≤ getFitness s w ∧ getFitness s tb ≤ getFitness s w ∧
      getLenght s w ≤ getLenght s ta ∧ getLenght s w ≤ getLenght s tb := by
  have hpos : 0 < totalLenght s := lt_of_le_of_ne (totalLenght_nonneg s hnn) (Ne.symm htot)
  obtain ⟨ha0, ha, hb0, hb, hab⟩ := drawPair_ok h
  obtain ⟨ta, hta, _⟩ := vecAt_of_lt s.m_population a ha0 (by omega)
  obtain ⟨tb, htb, _⟩ := vecAt_of_lt s.m_population b hb0 (by omega)
  refine ⟨hab, ta, tb, ?_⟩
  by_cases hfit : getFitness s ta > getFitness s tb
  · refine ⟨ta, hta, htb, by rw [if_pos hfit], ?_, ?_, le_refl _, le_of_lt hfit, le_refl _,
      (getFitness_le_iff s hpos ta tb).1 (le_of_lt hfit)⟩
    · simp only [tournamentLoop, h, hta, htb, hfit, if_true]
    · intro count
      conv_lhs => unfold tournamentLoop
      simp only [h, hta, htb, hfit, if_true]
  · have hle : getFitness s ta ≤ getFitness s tb := not_lt.1 hfit
    refine ⟨tb, hta, htb, by rw [if_neg hfit], ?_, ?_, hle, le_refl _,
      (getFitness_le_iff s hpos tb ta).1 hle, le_refl _⟩
    · simp only [tournamentLoop, h, hta, htb, hfit, if_false]
    · intro count
      conv_lhs => unfold tournamentLoop
      simp only [h, hta, htb, hfit, if_false]

/-- Witness of C17, amended: on `rankedOneWay` the draws `0` and `2` pit the tour `0 1 2` of
length 3 against `2 1 0` of length 10. -/
theorem tournament_appends_fitter_witness :
    (0 : Int) ≠ 2 ∧ ∃ ta tb w, vecAt rankedOneWay.m_population 0 = .ok ta ∧
      vecAt rankedOneWay.m_population 2 = .ok tb ∧
      w = (if getFitness rankedOneWay ta > getFitness rankedOneWay tb then ta else tb) ∧
      tournamentLoop rankedOneWay 1 [0, 2] [] = .ok ([] ++ [w], []) ∧
      (∀ count, tournamentLoop rankedOneWay (count + 1) [0, 2] [] =
        tournamentLoop rankedOneWay count [] ([] ++ [w])) ∧
      getFitness rankedOneWay ta ≤ getFitness rankedOneWay w ∧
      getFitness rankedOneWay tb ≤ getFitness rankedOneWay w ∧
      getLenght rankedOneWay w ≤ getLenght rankedOneWay ta ∧
      getLenght rankedOneWay w ≤ getLenght rankedOneWay tb :=
  tournament_appends_fitter rankedOneWay [0, 2] [] [] 0 2
    (by simp [NonNegMatrix, rankedOneWay, oneWay]) (by decide!) (by decide!)

/-- The round of the witness of C17 appends the tour `0 1 2`. -/
theorem tournament_round_demo :
    tournamentLoop rankedOneWay 1 [0, 2] [] = .ok ([[0, 1, 2]], []) := by
  decide!

/-- C20: for every non-empty population of `N` tours and every list of draws, `proportional()`
returns as soon as `SELECTION_PART` is positive and one draw per tour is at hand, and the pool
it returns has at most `N / SELECTION_PART` tours and is a subsequence of the population in
rank order: the pooled tours are `population[f(0)], population[f(1)], ...` for strictly
increasing indices. -/
theorem proportional_subsequence (cfg : Config) (s : TSP) (draws : List Nat)
    (hne : s.m_population ≠ []) :
    (0 < cfg.SELECTION_PART → s.m_population.length ≤ draws.length →
        ∃ out, proportional cfg s draws = .ok out) ∧
      ∀ pool rest, proportional cfg s draws = .ok (pool, rest) →
        pool.length ≤ s.m_population.length / cfg.SELECTION_PART ∧
        pool.Sublist s.m_population ∧
        ∃ f : Nat → Nat, StrictMono f ∧
          ∀ j, j < pool.length →
            f j < s.m_population.length ∧ pool[j]? = s.m_population[f j]? := by
  constructor
  · intro hsp hlen
    obtain ⟨mn, mx, heq⟩ := proportional_eq_loop cfg s draws hne hsp
    rw [heq]
    exact proportionalLoop_total cfg s mn mx _ _ _ _ hlen
  · intro pool rest h
    obtain ⟨_, hsp⟩ := proportional_nonempty h
    obtain ⟨mn, mx, heq⟩ := proportional_eq_loop cfg s draws hne hsp
    rw [heq] at h
    obtain ⟨added, hpool, hsub, hcap, _⟩ := proportionalLoop_spec cfg s mn mx _ _ _ _ _ _ h
    rw [List.nil_append] at hpool
    subst hpool
    refine ⟨hcap (Nat.zero_le _), hsub, ?_⟩
    obtain ⟨f, hf⟩ := List.sublist_iff_exists_orderEmbedding_get?_eq.1 hsub
    refine ⟨f, f.strictMono, fun j hj => ?_⟩
    have hj2 := hf j
    simp only [List.get?_eq_getElem?] at hj2
    refine ⟨?_, hj2⟩
    rw [List.getElem?_eq_getElem hj] at hj2
    by_contra hcon
    rw [List.getElem?_eq_none (Nat.le_of_not_lt hcon)] at hj2
    cases hj2

/-- Witness of C20: the ranked population `rankedOneWay` under `demoConfig`; the die `0.5`
admits the second tour. -/
theorem proportional_subsequence_witness :
    (0 < demoConfig.SELECTION_PART →
        rankedOneWay.m_population.length ≤ [49, 99, 99, 99].length →
        ∃ out, proportional demoConfig rankedOneWay [49, 99, 99, 99] = .ok out) ∧
      ∀ pool rest, proportional demoConfig rankedOneWay [49, 99, 99, 99] = .ok (pool, rest) →
        pool.length ≤ rankedOneWay.m_population.length / demoConfig.SELECTION_PART ∧
        pool.Sublist rankedOneWay.m_population ∧
        ∃ f : Nat → Nat, StrictMono f ∧
          ∀ j, j < pool.length →
            f j < rankedOneWay.m_population.length ∧
              pool[j]? = rankedOneWay.m_population[f j]? :=
  proportional_subsequence demoConfig rankedOneWay [49, 99, 99, 99] (by decide)

/-- The run of the witness of C20 returns the two top tours after one draw. -/
theorem proportional_demo_run :
    proportional demoConfig rankedOneWay [49, 99, 99, 99] =
      .ok ([[0, 1, 2], [1, 2, 0]], [99, 99, 99]) := by
  decide!

/-! ## Ranking the population -/

theorem totalLenght_congr (s s2 : TSP) (h1 : s2.m_size = s.m_size)
    (h2 : s2.m_matrix = s.m_matrix) (hperm : s2.m_population.Perm s.m_population) :
    totalLenght s2 = totalLenght s := by
  rw [totalLenght_eq_sum, totalLenght_eq_sum]
  have hfun : getLenght s2 = getLenght s := funext (getLenght_congr s s2 h1 h2)
  rw [hfun]
  exact (hperm.map _).sum_eq

theorem getFitness_congr (s s2 : TSP) (h1 : s2.m_size = s.m_size)
    (h2 : s2.m_matrix = s.m_matrix) (hperm : s2.m_population.Perm s.m_population) (t : Tour) :
    getFitness s2 t = getFitness s t := by
  unfold getFitness
  rw [getLenght_congr s s2 h1 h2, totalLenght_congr s s2 h1 h2 hperm]

/-- On a non-empty population `sortAndBest` returns. -/
theorem sortAndBest_of_nonempty (srt : StdSort) (s : TSP) (hne : s.m_population ≠ []) :
    ∃ s2, sortAndBest srt s = .ok s2 := by
  unfold sortAndBest
  have hperm := srt.perm (getFitness s) s.m_population
  cases hrun : srt.run (greaterBy (getFitness s)) s.m_population with
  | nil =>
    rw [hrun] at hperm
    exact absurd (List.Perm.nil_eq hperm).symm hne
  | cons best rest => exact ⟨_, rfl⟩

/-- C12: for every non-empty population with non-negative distances and non-zero total length,
`sortAndBest()` returns; afterwards the population is a rearrangement of the previous one
ordered by non-increasing fitness, `m_path` is its first tour, and
`m_record = getLenght(m_path)` is the minimum tour length over the population. -/
theorem sortAndBest_ranks (srt : StdSort) (s : TSP) (hne : s.m_population ≠ [])
    (hnn : NonNegMatrix s.m_matrix) (htot : totalLenght s ≠ 0) :
    ∃ s2, sortAndBest srt s = .ok s2 ∧ s2.m_population.Perm s.m_population ∧
      SortedByFitness s2 ∧ s2.m_population.head? = some s2.m_path ∧
      s2.m_record = getLenght s2 s2.m_path ∧ s2.m_path ∈ s.m_population ∧
      (∀ t ∈ s.m_population, s2.m_record ≤ getLenght s t) ∧
      s2.m_size = s.m_size ∧ s2.m_matrix = s.m_matrix := by
  obtain ⟨s2, h⟩ := sortAndBest_of_nonempty srt s hne
  obtain ⟨hsize, hmat, hperm, hsorted, best, rest, hpop, hpath, hrec⟩ := sortAndBest_spec h
  refine ⟨s2, h, hperm, ?_, ?_, ?_, ?_, sortAndBest_record_le hnn h, hsize, hmat⟩
  · unfold SortedByFitness
    have hfun : getFitness s2 = getFitness s :=
      funext (getFitness_congr s s2 hsize hmat hperm)
    rw [hfun]
    exact hsorted
  · rw [hpop, hpath]
    rfl
  · rw [hrec, hpath, getLenght_congr s s2 hsize hmat]
  · rw [hpath]
    exact hperm.mem_iff.1 (by rw [hpop]; exact List.mem_cons_self _ _)

/-- Witness of C12: the unranked population `unrankedOneWay`, sorted by insertion. -/
theorem sortAndBest_ranks_witness :
    ∃ s2, sortAndBest insertionStdSort unrankedOneWay = .ok s2 ∧
      s2.m_population.Perm unrankedOneWay.m_population ∧
      SortedByFitness s2 ∧ s2.m_population.head? = some s2.m_path ∧
      s2.m_record = getLenght s2 s2.m_path ∧ s2.m_path ∈ unrankedOneWay.m_population ∧
      (∀ t ∈ unrankedOneWay.m_population, s2.m_record ≤ getLenght unrankedOneWay t) ∧
      s2.m_size = unrankedOneWay.m_size ∧ s2.m_matrix = unrankedOneWay.m_matrix :=
  sortAndBest_ranks insertionStdSort unrankedOneWay (by decide)
    (by simp [NonNegMatrix, unrankedOneWay, oneWay]) (by decide!)

/-- The run of the witness of C12: the two tours of length 3 come first, the record is 3. -/
theorem sortAndBest_demo_run :
    sortAndBest insertionStdSort unrankedOneWay =
      .ok { unrankedOneWay with
              m_population := [[0, 1, 2], [1, 2, 0], [2, 1, 0], [0, 2, 1]]
              m_path := [0, 1, 2]
              m_record := 3 } := by
  decide!

/-! ## The population stays ranked -/

/-- With non-negative distances a tour that is not longer does not rank lower. -/
theorem fitness_le_of_length_le (s : TSP) (hnn : NonNegMatrix s.m_matrix) {a b : Tour}
    (h : getLenght s a ≤ getLenght s b) : getFitness s b ≤ getFitness s a := by
  unfold getFitness
  apply sub_le_sub_left
  exact div_le_div_of_nonneg_right h (totalLenght_nonneg s hnn)

theorem sortedByFitness_of_sortedByLength (s : TSP) (hnn : NonNegMatrix s.m_matrix)
    (h : SortedByLength s) : SortedByFitness s :=
  List.Pairwise.imp (fun hab => fitness_le_of_length_le s hnn hab) h

theorem sortAndBest_sortedByLength {srt : StdSort} {s s2 : TSP}
    (hnn : NonNegMatrix s.m_matrix) (h : sortAndBest srt s = .ok s2) : SortedByLength s2 := by
  obtain ⟨hsize, hmat, hperm, hsorted, _⟩ := sortAndBest_spec h
  unfold SortedByLength
  have hfun : getLenght s2 = getLenght s := funext (getLenght_congr s s2 hsize hmat)
  rw [hfun]
  exact List.Pairwise.imp_of_mem
    (fun ha _ hab => length_le_of_fitness_le s hnn (hperm.mem_iff.1 ha) hab) hsorted

theorem truncate_sortedByLength {s : TSP} (h : SortedByLength s) :
    SortedByLength (truncate s) :=
  List.Pairwise.sublist (List.take_sublist _ _) h

theorem generation_sortedByLength {srt : StdSort} {cfg : Config} {fuel : Nat}
    {cross : CROSSOVER_SELECTION} {s s3 : TSP} {draws rest : List Nat}
    (hnn : NonNegMatrix s.m_matrix)
    (h : generation srt cfg fuel cross s draws = .ok (s3, rest)) :
    SortedByLength s3 ∧ s3.m_matrix = s.m_matrix := by
  obtain ⟨pool, d1, s1, s2, _, hcross, hsort, htrunc⟩ := generation_parts h
  obtain ⟨_, _, hmat1, _⟩ := crossover_spec hcross
  obtain ⟨_, hmat2, _⟩ := sortAndBest_spec hsort
  subst htrunc
  exact ⟨truncate_sortedByLength (sortAndBest_sortedByLength (by rw [hmat1]; exact hnn) hsort),
    by simp [truncate, hmat2, hmat1]⟩

theorem GALoop_sortedByLength {srt : StdSort} {cfg : Config} {fuel : Nat}
    {cross : CROSSOVER_SELECTION} :
    ∀ (g : Nat) (s sg : TSP) (draws rest : List Nat), NonNegMatrix s.m_matrix →
      SortedByLength s → GALoop srt cfg fuel cross g s draws = .ok (sg, rest) →
        SortedByLength sg ∧ sg.m_matrix = s.m_matrix := by
  intro g
  induction g with
  | zero =>
    intro s sg draws rest _ hs h
    simp only [GALoop, Except.ok.injEq, Prod.mk.injEq] at h
    rw [← h.1]
    exact ⟨hs, rfl⟩
  | succ g ih =>
    intro s sg draws rest hnn _ h
    unfold GALoop at h
    cases h1 : generation srt cfg fuel cross s draws with
    | error e => simp [h1] at h
    | ok q =>
      obtain ⟨s1, d1⟩ := q
      simp only [h1] at h
      obtain ⟨hs1, hmat1⟩ := generation_sortedByLength hnn h1
      obtain ⟨hsg, hmatg⟩ := ih s1 sg d1 rest (by rw [hmat1]; exact hnn) hs1 h
      exact ⟨hsg, by rw [hmatg, hmat1]⟩

/-- In a population ranked by fitness the first tour has the largest and the last tour the
smallest fitness. -/
theorem SortedByFitness.first_last {s : TSP} (h : SortedByFitness s) {first last : Tour}
    (hfirst : s.m_population.head? = some first)
    (hlast : s.m_population.getLast? = some last) :
    ∀ t ∈ s.m_population,
      getFitness s last ≤ getFitness s t ∧ getFitness s t ≤ getFitness s first := by
  unfold SortedByFitness at h
  intro t ht
  constructor
  · have hsplit : s.m_population.dropLast ++ [last] = s.m_population :=
      List.dropLast_append_getLast? last (by rw [hlast]; exact rfl)
    rw [← hsplit] at h ht
    rcases List.mem_append.1 ht with hmem | hmem
    · exact (List.pairwise_append.1 h).2.2 t hmem last (List.mem_singleton.2 rfl)
    · rw [List.mem_singleton.1 hmem]
  · cases hpop : s.m_population with
    | nil => rw [hpop] at ht; cases ht
    | cons x xs =>
      rw [hpop] at h ht hfirst
      simp only [List.head?_cons, Option.some.injEq] at hfirst
      subst hfirst
      rcases List.mem_cons.1 ht with rfl | hmem
      · exact le_refl _
      · exact (List.pairwise_cons.1 h).1 t hmem

/-- C19: in a run of `solve` on an instance with non-negative distances, the population that
`selectionForCrossover` is called on after any number `g` of generations is ordered by
non-decreasing length; when its total length is non-zero it is thus ordered by
non-increasing fitness taken against itself, so that index 0 holds the largest and the last
index the smallest fitness, as `proportional()` assumes. -/
theorem selection_sees_ranked (srt : StdSort) (cfg : Config) (fuel : Nat)
    (cross : CROSSOVER_SELECTION) (s sg : TSP) (draws rest : List Nat) (g : Nat)
    (hnn : NonNegMatrix s.m_matrix)
    (h : afterGenerations srt cfg fuel cross g s draws = .ok (sg, rest)) :
    SortedByLength sg ∧
      (totalLenght sg ≠ 0 →
        SortedByFitness sg ∧
        ∀ first last, sg.m_population.head? = some first →
          sg.m_population.getLast? = some last →
          ∀ t ∈ sg.m_population,
            getFitness sg last ≤ getFitness sg t ∧ getFitness sg t ≤ getFitness sg first) := by
  unfold afterGenerations at h
  cases h0 : sortAndBest srt s with
  | error e => simp [h0] at h
  | ok s0 =>
    simp only [h0] at h
    obtain ⟨_, hmat0, _⟩ := sortAndBest_spec h0
    have hnn0 : NonNegMatrix s0.m_matrix := by rw [hmat0]; exact hnn
    obtain ⟨hsorted, hmat⟩ :=
      GALoop_sortedByLength g s0 sg draws rest hnn0 (sortAndBest_sortedByLength hnn h0) h
    have hnng : NonNegMatrix sg.m_matrix := by rw [hmat]; exact hnn0
    refine ⟨hsorted, fun _ => ?_⟩
    have hfit := sortedByFitness_of_sortedByLength sg hnng hsorted
    exact ⟨hfit, fun first last hf hl => hfit.first_last hf hl⟩

/-- Witness of C19: the unranked population `unrankedOneWay` after the initial `sortAndBest`
and one generation with proportional selection. -/
theorem selection_sees_ranked_witness :
    SortedByLength oneWayAfterOne ∧
      (totalLenght oneWayAfterOne ≠ 0 →
        SortedByFitness oneWayAfterOne ∧
        ∀ first last, oneWayAfterOne.m_population.head? = some first →
          oneWayAfterOne.m_population.getLast? = some last →
          ∀ t ∈ oneWayAfterOne.m_population,
            getFitness oneWayAfterOne last ≤ getFitness oneWayAfterOne t ∧
              getFitness oneWayAfterOne t ≤ getFitness oneWayAfterOne first) :=
  selection_sees_ranked insertionStdSort demoConfig 3 .PROPORTIONAL unrankedOneWay
    oneWayAfterOne [49, 0, 0, 0, 1, 99, 99, 99, 7] [7] 1
    (by simp [NonNegMatrix, unrankedOneWay, oneWay]) (by decide!)

/-! ## A population of a single tour -/

/-- On a population of one tour and with `SELECTION_PART >= 2` both selectors return an empty
pool without drawing. -/
theorem selection_single {cfg : Config} {s : TSP} {t : Tour} (hpop : s.m_population = [t])
    (hsp : 2 ≤ cfg.SELECTION_PART) (cross : CROSSOVER_SELECTION) (draws : List Nat) :
    selectionForCrossover cross cfg s draws = .ok ([], draws) := by
  have hsp0 : cfg.SELECTION_PART ≠ 0 := by omega
  have hdiv : 1 / cfg.SELECTION_PART = 0 := Nat.div_eq_of_lt (by omega)
  cases cross with
  | TOURNAMENT =>
    simp only [selectionForCrossover, tournament, if_neg hsp0, hpop, List.length_singleton,
      hdiv, tournamentLoop]
  | PROPORTIONAL =>
    simp only [selectionForCrossover, proportional, hpop, List.getLast?_singleton,
      List.head?_cons, if_neg hsp0, proportionalLoop, List.length_nil,
      List.length_singleton, hdiv, if_true]

/-- The crossover of an empty pool reads `population[0]` of an empty vector. -/
theorem crossover_nil (cfg : Config) (fuel : Nat) (s : TSP) (draws : List Nat) :
    crossover cfg fuel s [] draws = .error .outOfBounds := rfl

/-- A generation on a population of one tour, with `SELECTION_PART >= 2`, ends in the
out-of-bounds read of `crossover`. -/
theorem generation_single {srt : StdSort} {cfg : Config} {s : TSP} {t : Tour}
    (hpop : s.m_population = [t]) (hsp : 2 ≤ cfg.SELECTION_PART) (fuel : Nat)
    (cross : CROSSOVER_SELECTION) (draws : List Nat) :
    generation srt cfg fuel cross s draws = .error .outOfBounds := by
  simp only [generation, selection_single hpop hsp cross draws, crossover_nil]

/-- C13, the code at the failing input: for the single tour `0 1 2` on the instance `oneWay`
and `SELECTION_PART = 2`, both selectors return an empty pool, `crossover` of the empty pool
is an out-of-bounds read, and so is every run of `solve`. -/
theorem single_tour_faults :
    (∀ cross draws, selectionForCrossover cross demoConfig singleTour draws = .ok ([], draws)) ∧
      (∀ draws, crossover demoConfig 3 singleTour [] draws = .error .outOfBounds) ∧
      ∀ cross draws,
        solve insertionStdSort demoConfig 3 cross singleTour draws = .error .outOfBounds := by
  refine ⟨fun cross draws => selection_single rfl (by decide) cross draws,
    fun draws => rfl, fun cross draws => ?_⟩
  have h0 : sortAndBest insertionStdSort singleTour =
      .ok { singleTour with m_path := [0, 1, 2], m_record := 3 } := by decide!
  have hgen := @generation_single insertionStdSort demoConfig
    { singleTour with m_path := [0, 1, 2], m_record := 3 } [0, 1, 2] rfl
    (by decide) 3 cross draws
  have hit : demoConfig.ITERATIONS = 1 + 1 := rfl
  simp only [solve, h0, GA, hit, GALoop, hgen]

/-! ## The children of a crossover -/

/-- On a tour of at least two nodes the mutation loop returns once the draws are extended
suitably, and further draws are left untouched. -/
theorem mutationLoop_extend_stable (cfg : Config) (size : Nat) (hsize : 2 ≤ size) :
    ∀ (count : Nat) (draws : List Nat) (result : Tour), result.length = size →
      ∃ extra out rest, ∀ more,
        mutationLoop cfg size count (draws ++ extra ++ more) result =
          .ok (out, rest ++ more) := by
  intro count
  induction count with
  | zero =>
    intro draws result _
    exact ⟨[], result, draws, fun more => by simp [mutationLoop]⟩
  | succ count ih =>
    intro draws result hlen
    obtain ⟨e1, r, rest1, h1⟩ := rand_extend 1 100 (by omega) draws
    by_cases hdie : (r : ℚ) / 100 < cfg.MUTATION_PROBABILITY
    · obtain ⟨e2, a, b, rest2, h2⟩ := drawPair_extend ((size : Int) - 1) (by omega) rest1
      obtain ⟨ha0, ha, hb0, hb, _⟩ := drawPair_ok (h2 [])
      obtain ⟨swapped, hsw⟩ := swapAt_of_lt result a b ha0 (by omega) hb0 (by omega)
      have hswlen : swapped.length = size := by
        rw [List.Perm.length_eq (swapAt_perm hsw)]
        exact hlen
      obtain ⟨e3, out, rest3, h3⟩ := ih rest2 swapped hswlen
      refine ⟨e1 ++ (e2 ++ e3), out, rest3, fun more => ?_⟩
      have h1m := h1 (e2 ++ e3 ++ more)
      have h2m := h2 (e3 ++ more)
      have h3m := h3 more
      unfold mutationLoop
      have e : draws ++ (e1 ++ (e2 ++ e3)) ++ more = draws ++ e1 ++ (e2 ++ e3 ++ more) := by
        simp only [List.append_assoc]
      rw [e, h1m]
      simp only [hdie, if_true]
      have e2' : rest1 ++ (e2 ++ e3 ++ more) = rest1 ++ e2 ++ (e3 ++ more) := by
        simp only [List.append_assoc]
      rw [e2', h2m]
      simp only [hsw]
      have e3' : rest2 ++ (e3 ++ more) = rest2 ++ e3 ++ more := by
        simp only [List.append_assoc]
      rw [e3', h3m]
    · obtain ⟨e3, out, rest3, h3⟩ := ih rest1 result hlen
      refine ⟨e1 ++ e3, out, rest3, fun more => ?_⟩
      have h1m := h1 (e3 ++ more)
      have h3m := h3 more
      unfold mutationLoop
      have e : draws ++ (e1 ++ e3) ++ more = draws ++ e1 ++ (e3 ++ more) := by
        simp only [List.append_assoc]
      rw [e, h1m]
      simp only [hdie, if_false]
      have e3' : rest1 ++ (e3 ++ more) = rest1 ++ e3 ++ more := by
        simp only [List.append_assoc]
      rw [e3', h3m]

/-- The loop of `crossover` appends two children per consecutive pair of the pool: the
mutated `PMX` of the pair and the mutated `PMX` of the swapped pair, in this order. -/
theorem crossoverLoop_children (cfg : Config) (fuel k : Nat) :
    ∀ (pool : List Tour) (draws : List Nat) (pop pop2 : List Tour) (rest : List Nat),
      crossoverLoop cfg fuel k pool draws pop = .ok (pop2, rest) →
        ∃ children, pop2 = pop ++ children ∧ children.length = 2 * (pool.length - 1) ∧
          ∀ i, i + 1 < pool.length →
            ∃ a b c1 c2 da db dc m1 m2, pool[i]? = some a ∧ pool[i + 1]? = some b ∧
              PMX fuel a b k = .ok c1 ∧ mutation cfg c1 da = .ok (m1, db) ∧
              PMX fuel b a k = .ok c2 ∧ mutation cfg c2 db = .ok (m2, dc) ∧
              children[2 * i]? = some m1 ∧ children[2 * i + 1]? = some m2 := by
  intro pool
  induction pool with
  | nil =>
    intro draws pop pop2 rest h
    simp only [crossoverLoop, Except.ok.injEq, Prod.mk.injEq] at h
    exact ⟨[], by simp [h.1], rfl, fun i hi => by simp at hi⟩
  | cons a pool ih =>
    intro draws pop pop2 rest h
    cases pool with
    | nil =>
      simp only [crossoverLoop, Except.ok.injEq, Prod.mk.injEq] at h
      exact ⟨[], by simp [h.1], rfl, fun i hi => by simp at hi⟩
    | cons b pool =>
      unfold crossoverLoop at h
      cases h1 : PMX fuel a b k with
      | error e => simp [h1] at h
      | ok c1 =>
        simp only [h1] at h
        cases h2 : mutation cfg c1 draws with
        | error e => simp [h2] at h
        | ok q1 =>
          obtain ⟨m1, d1⟩ := q1
          simp only [h2] at h
          cases h3 : PMX fuel b a k with
          | error e => simp [h3] at h
          | ok c2 =>
            simp only [h3] at h
            cases h4 : mutation cfg c2 d1 with
            | error e => simp [h4] at h
            | ok q2 =>
              obtain ⟨m2, d2⟩ := q2
              simp only [h4] at h
              obtain ⟨children, hch, hlen, hpairs⟩ := ih _ _ _ _ h
              refine ⟨m1 :: m2 :: children, by rw [hch]; simp, ?_, ?_⟩
              · simp only [List.length_cons] at hlen ⊢
                omega
              · intro i hi
                cases i with
                | zero =>
                  exact ⟨a, b, c1, c2, draws, d1, d2, m1, m2, rfl, by simp, h1, h2, h3, h4,
                    rfl, by simp⟩
                | succ i =>
                  obtain ⟨a', b', c1', c2', da, db, dc, m1', m2', ha, hb, hp1, hm1, hp2, hm2,
                    hc1, hc2⟩ := hpairs i (by simp only [List.length_cons] at hi ⊢; omega)
                  refine ⟨a', b', c1', c2', da, db, dc, m1', m2', ?_, ?_, hp1, hm1, hp2, hm2,
                    ?_, ?_⟩
                  · simpa using ha
                  · simpa using hb
                  · have : 2 * (i + 1) = 2 * i + 1 + 1 := by omega
                    rw [this]
                    simpa using hc1
                  · have : 2 * (i + 1) + 1 = 2 * i + 1 + 1 + 1 := by omega
                    rw [this]
                    simpa using hc2

/-- On a pool of valid tours over `n >= 3` nodes, cut at `k < n` and with fuel for `k + 1`
jumps, the loop of `crossover` returns once the draws are extended suitably. -/
theorem crossoverLoop_extend (cfg : Config) (fuel k n : Nat) (hn : 3 ≤ n) (hk : k < n)
    (hfuel : k + 1 ≤ fuel) :
    ∀ (pool : List Tour) (draws : List Nat) (pop : List Tour),
      (∀ t ∈ pool, ValidTour n t) →
        ∃ more out, crossoverLoop cfg fuel k pool (draws ++ more) pop = .ok out := by
  intro pool
  induction pool with
  | nil =>
    intro draws pop _
    exact ⟨[], _, rfl⟩
  | cons a pool ih =>
    intro draws pop hvalid
    cases pool with
    | nil => exact ⟨[], _, rfl⟩
    | cons b pool =>
      have ha : ValidTour n a := hvalid a (by simp)
      have hb : ValidTour n b := hvalid b (by simp)
      have H1 : Parents n k a b := ⟨ha, hb, hk⟩
      have H2 : Parents n k b a := ⟨hb, ha, hk⟩
      obtain ⟨c1, hc1, hs1⟩ := H1.PMX_shape hfuel
      obtain ⟨c2, hc2, hs2⟩ := H2.PMX_shape hfuel
      have hl1 : 2 ≤ c1.length := by rw [(H1.childShape_valid hfuel hs1).length_eq]; omega
      have hl2 : 2 ≤ c2.length := by rw [(H2.childShape_valid hfuel hs2).length_eq]; omega
      obtain ⟨e1, m1, r1, h1⟩ :=
        mutationLoop_extend_stable cfg c1.length hl1 cfg.MUTATION_SIZE draws c1 rfl
      obtain ⟨e2, m2, r2, h2⟩ :=
        mutationLoop_extend_stable cfg c2.length hl2 cfg.MUTATION_SIZE r1 c2 rfl
      obtain ⟨more, out, hout⟩ :=
        ih r2 (pop ++ [m1, m2]) (fun t ht => hvalid t (List.mem_cons_of_mem _ ht))
      refine ⟨e1 ++ (e2 ++ more), out, ?_⟩
      have h1m : mutation cfg c1 (draws ++ (e1 ++ (e2 ++ more))) =
          .ok (m1, r1 ++ (e2 ++ more)) := by
        have := h1 (e2 ++ more)
        rw [List.append_assoc] at this
        exact this
      have h2m : mutation cfg c2 (r1 ++ (e2 ++ more)) = .ok (m2, r2 ++ more) := by
        have := h2 more
        rw [List.append_assoc] at this
        exact this
      unfold crossoverLoop
      simp only [hc1, h1m, hc2, h2m]
      exact hout

/-- C11: for every mating pool of `p >= 1` valid tours over `n >= 3` nodes and every
population, `crossover(pool)` returns once the draws are extended suitably; when it returns,
the existing tours are unchanged and in place, exactly `2 * (p - 1)` children are appended,
and for `i = 0, ..., p - 2` the children at `2 i` and `2 i + 1` are
`mutation(PMX(pool[i], pool[i+1], k))` and `mutation(PMX(pool[i+1], pool[i], k))` for one
cut point `k` with `1 <= k <= n - 2`. -/
theorem crossover_appends (cfg : Config) (fuel n : Nat) (s : TSP) (pool : List Tour)
    (draws : List Nat) (hp : 1 ≤ pool.length) (hn : 3 ≤ n)
    (hvalid : ∀ t ∈ pool, ValidTour n t) (hfuel : n ≤ fuel) :
    (∃ more out, crossover cfg fuel s pool (draws ++ more) = .ok out) ∧
      ∀ s1 rest, crossover cfg fuel s pool draws = .ok (s1, rest) →
        s1.m_size = s.m_size ∧ s1.m_matrix = s.m_matrix ∧ s1.m_path = s.m_path ∧
        s1.m_record = s.m_record ∧
        ∃ (k : Nat) (children : List Tour), 1 ≤ k ∧ k ≤ n - 2 ∧
          s1.m_population = s.m_population ++ children ∧
          children.length = 2 * (pool.length - 1) ∧
          s1.m_population.length = s.m_population.length + 2 * (pool.length - 1) ∧
          ∀ i, i + 1 < pool.length →
            ∃ a b c1 c2 da db dc m1 m2, pool[i]? = some a ∧ pool[i + 1]? = some b ∧
              PMX fuel a b k = .ok c1 ∧ mutation cfg c1 da = .ok (m1, db) ∧
              PMX fuel b a k = .ok c2 ∧ mutation cfg c2 db = .ok (m2, dc) ∧
              children[2 * i]? = some m1 ∧ children[2 * i + 1]? = some m2 := by
  cases pool with
  | nil => simp at hp
  | cons p0 pool =>
    have hlen0 : p0.length = n := (hvalid p0 (by simp)).length_eq
    have hrange : (1 : Int) ≤ (p0.length : Int) - 2 := by omega
    constructor
    · obtain ⟨e0, kv, r0, h0⟩ := rand_extend 1 ((p0.length : Int) - 2) hrange draws
      obtain ⟨_, r, _, hkv⟩ := rand_ok (h0 [])
      have hkr := randVal_range 1 ((p0.length : Int) - 2) r hrange
      rw [← hkv] at hkr
      obtain ⟨more, out, hout⟩ := crossoverLoop_extend cfg fuel kv.toNat n hn (by omega)
        (by omega) (p0 :: pool) r0 s.m_population hvalid
      refine ⟨e0 ++ more, ⟨{ s with m_population := out.1 }, out.2⟩, ?_⟩
      unfold crossover
      simp only
      rw [← List.append_assoc, h0 more]
      simp only [hout]
    · intro s1 rest h
      unfold crossover at h
      simp only at h
      cases h1 : rand 1 ((p0.length : Int) - 2) draws with
      | error e => simp [h1] at h
      | ok q =>
        obtain ⟨kv, d1⟩ := q
        simp only [h1] at h
        cases h2 : crossoverLoop cfg fuel kv.toNat (p0 :: pool) d1 s.m_population with
        | error e => simp [h2] at h
        | ok q2 =>
          obtain ⟨pop, d2⟩ := q2
          simp only [h2, Except.ok.injEq, Prod.mk.injEq] at h
          obtain ⟨_, r, _, hkv⟩ := rand_ok h1
          have hkr := randVal_range 1 ((p0.length : Int) - 2) r hrange
          rw [← hkv] at hkr
          obtain ⟨children, hch, hclen, hpairs⟩ := crossoverLoop_children cfg fuel _ _ _ _ _ _ h2
          rw [← h.1]
          refine ⟨rfl, rfl, rfl, rfl, kv.toNat, children, by omega, by omega, hch, hclen, ?_,
            hpairs⟩
          show pop.length = _
          rw [hch, List.length_append, hclen]

/-- Witness of C11: a pool of three tours over three nodes, crossed into the population of
`rankedOneWay`. -/
theorem crossover_appends_witness :
    (∃ more out, crossover demoConfig 3 rankedOneWay [[0, 1, 2], [1, 2, 0], [2, 1, 0]]
        ([0, 0, 0, 1, 99, 99, 99, 99, 99, 99, 99] ++ more) = .ok out) ∧
      ∀ s1 rest, crossover demoConfig 3 rankedOneWay [[0, 1, 2], [1, 2, 0], [2, 1, 0]]
          [0, 0, 0, 1, 99, 99, 99, 99, 99, 99, 99] = .ok (s1, rest) →
        s1.m_size = rankedOneWay.m_size ∧ s1.m_matrix = rankedOneWay.m_matrix ∧
        s1.m_path = rankedOneWay.m_path ∧ s1.m_record = rankedOneWay.m_record ∧
        ∃ (k : Nat) (children : List Tour), 1 ≤ k ∧ k ≤ 3 - 2 ∧
          s1.m_population = rankedOneWay.m_population ++ children ∧
          children.length = 2 * ([[(0 : Int), 1, 2], [1, 2, 0], [2, 1, 0]].length - 1) ∧
          s1.m_population.length = rankedOneWay.m_population.length +
            2 * ([[(0 : Int), 1, 2], [1, 2, 0], [2, 1, 0]].length - 1) ∧
          ∀ i, i + 1 < [[(0 : Int), 1, 2], [1, 2, 0], [2, 1, 0]].length →
            ∃ a b c1 c2 da db dc m1 m2,
              [[(0 : Int), 1, 2], [1, 2, 0], [2, 1, 0]][i]? = some a ∧
              [[(0 : Int), 1, 2], [1, 2, 0], [2, 1, 0]][i + 1]? = some b ∧
              PMX 3 a b k = .ok c1 ∧ mutation demoConfig c1 da = .ok (m1, db) ∧
              PMX 3 b a k = .ok c2 ∧ mutation demoConfig c2 db = .ok (m2, dc) ∧
              children[2 * i]? = some m1 ∧ children[2 * i + 1]? = some m2 :=
  crossover_appends demoConfig 3 3 rankedOneWay [[0, 1, 2], [1, 2, 0], [2, 1, 0]]
    [0, 0, 0, 1, 99, 99, 99, 99, 99, 99, 99] (by decide) (by decide) (by decide) (by decide)

/-- The run of the witness of C11: four children appended to the four tours, the first one
with its first two nodes swapped by the mutation. -/
theorem crossover_demo_run :
    crossover demoConfig 3 rankedOneWay [[0, 1, 2], [1, 2, 0], [2, 1, 0]]
        [0, 0, 0, 1, 99, 99, 99, 99, 99, 99, 99] =
      .ok ({ rankedOneWay with
              m_population := [[0, 1, 2], [1, 2, 0], [2, 1, 0], [0, 2, 1],
                [1, 0, 2], [1, 2, 0], [1, 2, 0], [2, 1, 0]] }, []) := by
  decide!

/-! ## Rounding and the reversal of a tour -/

/-- In double arithmetic the length of a tour on a symmetric matrix can change under
reversal: on `decimalCities` the sums for `0 1 2 3` and `3 2 1 0` differ in the last bit
(`0.9000000000000001` and `0.8999999999999999`), while the exact sums agree. -/
theorem getLenghtDouble_reverse_differs :
    SymmetricMatrix 4 decimalCities.m_matrix ∧
      getLenghtDouble decimalCities [0, 1, 2, 3] = 4053239664633447 / 4503599627370496 ∧
      getLenghtDouble decimalCities [0, 1, 2, 3].reverse =
        2026619832316723 / 2251799813685248 ∧
      getLenght decimalCities [0, 1, 2, 3].reverse = getLenght decimalCities [0, 1, 2, 3] := by
  refine ⟨?_, by decide!, by decide!, by decide!⟩
  intro i j hi hj
  have hi4 : i < 4 := hi
  have hj4 : j < 4 := hj
  interval_cases i <;> interval_cases j <;> rfl

end TSP_GA
